import Mathlib

/-!
Verification of the Maverick poker engine core
(`maverick/core/{cards,evaluator,equity_tables,outs,simulator}.py`).

The Python code is shallowly embedded: pure functions become Lean
functions over the same data, Python `sorted` becomes the stable
`List.insertionSort`, Python `Counter`/`dict` iteration (insertion
order of first occurrence) becomes `dedupFirst`, Python sets of cards
become `Finset Card`, and fallible entry points return `Except`.
-/

namespace Maverick

/-! ## Card model (`cards.py`) -/

inductive Suit
  | hearts
  | diamonds
  | clubs
  | spades
deriving DecidableEq

inductive Rank
  | two
  | three
  | four
  | five
  | six
  | seven
  | eight
  | nine
  | ten
  | jack
  | queen
  | king
  | ace
deriving DecidableEq

/-- `Rank.value_int`: numerical value of the rank (2-14, Ace high). -/
def Rank.value_int : Rank → Nat
  | .two => 2
  | .three => 3
  | .four => 4
  | .five => 5
  | .six => 6
  | .seven => 7
  | .eight => 8
  | .nine => 9
  | .ten => 10
  | .jack => 11
  | .queen => 12
  | .king => 13
  | .ace => 14

structure Card where
  rank : Rank
  suit : Suit
deriving DecidableEq

/-- Iteration order of `for suit in Suit` in the Python enum. -/
def allSuits : List Suit := [.hearts, .diamonds, .clubs, .spades]

/-- Iteration order of `for rank in Rank` in the Python enum. -/
def allRanks : List Rank :=
  [.two, .three, .four, .five, .six, .seven, .eight, .nine, .ten,
   .jack, .queen, .king, .ace]

/-! ## Generic helpers mirroring Python built-ins -/

/-- Key iteration order of a Python `Counter`/`dict` built from a stream:
distinct elements in order of first occurrence. -/
def dedupFirstAux {α} [DecidableEq α] : List α → List α → List α
  | [], _ => []
  | a :: l, seen =>
    if a ∈ seen then dedupFirstAux l seen
    else a :: dedupFirstAux l (a :: seen)

def dedupFirst {α} [DecidableEq α] (l : List α) : List α := dedupFirstAux l []

/-- Python `max(l)` over a nonempty list: keeps the first maximum.
Returns the junk value `d` on `[]` (Python would raise there; every use
site below is reachable only with a nonempty argument). -/
def pyMaxBy {α} (key : α → Nat) (d : α) (l : List α) : α :=
  match l with
  | [] => d
  | a :: l => l.foldl (fun acc x => if key acc < key x then x else acc) a

/-- Python `max` over `List Nat`. -/
def listMax (l : List Nat) : Nat := l.foldl max 0

/-- Python `min` over a nonempty `List Nat` (0 on `[]`, unreachable). -/
def listMin : List Nat → Nat
  | [] => 0
  | a :: l => l.foldl min a

/-- Python `<` on integer lists (lexicographic). -/
def listLexLt : List Nat → List Nat → Bool
  | [], [] => false
  | [], _ :: _ => true
  | _ :: _, [] => false
  | a :: as, b :: bs => if a < b then true else if b < a then false else listLexLt as bs

/-- Python `max` over a list of integer lists (first maximum). -/
def pyListMax (l : List (List Nat)) : List Nat :=
  match l with
  | [] => []
  | a :: l => l.foldl (fun acc x => if listLexLt acc x then x else acc) a

/-! Sorting relations used by the Python `sorted(...)` calls.
`sorted(..., key=k)` is the stable ascending sort by `k`, which is
exactly `List.insertionSort` with `k a ≤ k b`; `reverse=True` keeps
stability and flips the comparison, i.e. `insertionSort` with
`k b ≤ k a`. -/

def rankLe (a b : Card) : Prop := a.rank.value_int ≤ b.rank.value_int

def rankGe (a b : Card) : Prop := b.rank.value_int ≤ a.rank.value_int

instance : DecidableRel rankLe := fun a b => by unfold rankLe; infer_instance

instance : DecidableRel rankGe := fun a b => by unfold rankGe; infer_instance

instance : IsTotal Card rankLe := ⟨fun a b => Nat.le_total _ _⟩

instance : IsTrans Card rankLe := ⟨fun _ _ _ h h2 => Nat.le_trans h h2⟩

instance : IsTotal Card rankGe := ⟨fun a b => (Nat.le_total _ _).symm⟩

instance : IsTrans Card rankGe := ⟨fun _ _ _ h h2 => Nat.le_trans h2 h⟩

/-- Descending order on ranks by face value (stable `reverse=True` sort). -/
def rankValGe (a b : Rank) : Prop := b.value_int ≤ a.value_int

instance : DecidableRel rankValGe := fun a b => by unfold rankValGe; infer_instance

instance : IsTotal Rank rankValGe := ⟨fun a b => (Nat.le_total _ _).symm⟩

instance : IsTrans Rank rankValGe := ⟨fun _ _ _ h h2 => Nat.le_trans h2 h⟩

/-! ## Hand evaluator (`evaluator.py`) -/

inductive HandRank
  | highCard
  | pair
  | twoPair
  | threeOfAKind
  | straight
  | flush
  | fullHouse
  | fourOfAKind
  | straightFlush
  | royalFlush
deriving DecidableEq

/-- The `IntEnum` value (HIGH_CARD = 1 .. ROYAL_FLUSH = 10). -/
def HandRank.value : HandRank → Nat
  | .highCard => 1
  | .pair => 2
  | .twoPair => 3
  | .threeOfAKind => 4
  | .straight => 5
  | .flush => 6
  | .fullHouse => 7
  | .fourOfAKind => 8
  | .straightFlush => 9
  | .royalFlush => 10

/-- `Counter(card.rank for card in cards)[r]`. -/
def countRank (cards : List Card) (r : Rank) : Nat :=
  cards.countP (fun c => c.rank = r)

/-- `Counter(card.suit for card in cards)[s]`. -/
def countSuit (cards : List Card) (s : Suit) : Nat :=
  cards.countP (fun c => c.suit = s)

/-- Keys of `Counter(card.rank ...)` in iteration order. -/
def presentRanks (cards : List Card) : List Rank := dedupFirst (cards.map (·.rank))

/-- Keys of `Counter(card.suit ...)` in iteration order. -/
def presentSuits (cards : List Card) : List Suit := dedupFirst (cards.map (·.suit))

/-- `next((suit for suit, count in suits_count.items() if count >= 5), None)`. -/
def flushSuit (cards : List Card) : Option Suit :=
  (presentSuits cards).find? (fun s => 5 ≤ countSuit cards s)

/-- `sorted(set(card.rank.value_int for card in cards))`. -/
def sortedVals (cards : List Card) : List Nat :=
  List.insertionSort (· ≤ ·) (dedupFirst (cards.map (fun c => c.rank.value_int)))

/-- `if values[-1] == 14: values.append(1)` — the Ace-low append. -/
def withWheel (vals : List Nat) : List Nat :=
  if vals.getLast? = some 14 then vals ++ [1] else vals

/-- `values[i:i+5] == list(range(values[i], values[i]+5))`. -/
def isRunAt (vals : List Nat) (i : Nat) : Bool :=
  (vals.drop i).take 5 == List.range' (vals.getD i 0) 5

/-- All straight windows collected by
`for i in range(len(values) - 4): ... straights.append(values[i:i+5])`. -/
def straightsIn (vals : List Nat) : List (List Nat) :=
  ((List.range (vals.length - 4)).filter (isRunAt vals)).map
    (fun i => (vals.drop i).take 5)

def straightsOf (cards : List Card) : List (List Nat) :=
  straightsIn (withWheel (sortedVals cards))

/-- The straight-flush loop returns on the FIRST matching window. -/
def sfRun (fvals : List Nat) : Option (List Nat) :=
  ((List.range (fvals.length - 4)).find? (isRunAt fvals)).map
    (fun i => (fvals.drop i).take 5)

def checkStraightFlush (cards : List Card) : Option (HandRank × List Card) :=
  match flushSuit cards with
  | none => none
  | some fs =>
    if (straightsOf cards).isEmpty then none
    else
      let flushCards := cards.filter (fun c => c.suit = fs)
      match sfRun (withWheel (sortedVals flushCards)) with
      | none => none
      | some run =>
        let sfCards :=
          List.insertionSort rankLe (flushCards.filter (fun c => c.rank.value_int ∈ run))
        match sfCards.getLast? with
        | some top =>
          if top.rank = Rank.ace ∧ top.suit = fs then some (HandRank.royalFlush, sfCards)
          else some (HandRank.straightFlush, sfCards)
        | none => some (HandRank.straightFlush, sfCards)

def checkFourOfAKind (cards : List Card) : Option (HandRank × List Card) :=
  match (presentRanks cards).find? (fun r => countRank cards r = 4) with
  | none => none
  | some r =>
    let kickers := cards.filter (fun c => c.rank ≠ r)
    some (HandRank.fourOfAKind,
      List.insertionSort rankLe
        (cards.filter (fun c => c.rank = r) ++ [pyMaxBy (fun c => c.rank.value_int) ⟨.two, .hearts⟩ kickers]))

/-- Sort key of the full-house branch:
`key=lambda x: (x.rank == three_rank, x.rank.value_int), reverse=True`,
encoded as a single Nat (the boolean component dominates: 100 > 14). -/
def fhKey (t : Rank) (c : Card) : Nat :=
  (if c.rank = t then 100 else 0) + c.rank.value_int

def fhGe (t : Rank) (a b : Card) : Prop := fhKey t b ≤ fhKey t a

instance : ∀ t, DecidableRel (fhGe t) := fun t a b => by unfold fhGe; infer_instance

instance (t : Rank) : IsTotal Card (fhGe t) := ⟨fun a b => (Nat.le_total _ _).symm⟩

instance (t : Rank) : IsTrans Card (fhGe t) := ⟨fun _ _ _ h h2 => Nat.le_trans h2 h⟩

def checkFullHouse (cards : List Card) : Option (HandRank × List Card) :=
  match (presentRanks cards).find? (fun r => countRank cards r = 3),
        (presentRanks cards).find? (fun r => countRank cards r = 2) with
  | some t, some p =>
    some (HandRank.fullHouse,
      (List.insertionSort (fhGe t)
        (cards.filter (fun c => c.rank = t ∨ c.rank = p))).take 5)
  | _, _ => none

def checkFlush (cards : List Card) : Option (HandRank × List Card) :=
  match flushSuit cards with
  | some fs =>
    some (HandRank.flush,
      (List.insertionSort rankGe (cards.filter (fun c => c.suit = fs))).take 5)
  | none => none

def checkStraight (cards : List Card) : Option (HandRank × List Card) :=
  let ss := straightsOf cards
  if ss.isEmpty then none
  else
    let st := pyListMax ss
    some (HandRank.straight,
      List.insertionSort rankLe (cards.filter (fun c => c.rank.value_int ∈ st)))

def checkThreeOfAKind (cards : List Card) : Option (HandRank × List Card) :=
  match (presentRanks cards).find? (fun r => countRank cards r = 3) with
  | some r =>
    let kickers := (List.insertionSort rankGe (cards.filter (fun c => c.rank ≠ r))).take 2
    some (HandRank.threeOfAKind,
      List.insertionSort rankLe (cards.filter (fun c => c.rank = r) ++ kickers))
  | none => none

def checkTwoPair (cards : List Card) : Option (HandRank × List Card) :=
  let pairs := (presentRanks cards).filter (fun r => countRank cards r = 2)
  if pairs.length < 2 then none
  else
    let top2 := (List.insertionSort rankValGe pairs).take 2
    let pairCards := cards.filter (fun c => c.rank ∈ top2)
    let kickers := cards.filter (fun c => c.rank ∉ top2)
    some (HandRank.twoPair,
      List.insertionSort rankLe
        (pairCards ++ [pyMaxBy (fun c => c.rank.value_int) ⟨.two, .hearts⟩ kickers]))

def checkOnePair (cards : List Card) : Option (HandRank × List Card) :=
  match (presentRanks cards).find? (fun r => countRank cards r = 2) with
  | some r =>
    let kickers := (List.insertionSort rankGe (cards.filter (fun c => c.rank ≠ r))).take 3
    some (HandRank.pair,
      List.insertionSort rankLe (cards.filter (fun c => c.rank = r) ++ kickers))
  | none => none

def highCardEval (cards : List Card) : HandRank × List Card :=
  (HandRank.highCard, (List.insertionSort rankGe cards).take 5)

/-- The early-return chain of `HandEvaluator.evaluate_hand` after the
length guard. -/
def evalBody (cards : List Card) : HandRank × List Card :=
  match checkStraightFlush cards with
  | some res => res
  | none =>
  match checkFourOfAKind cards with
  | some res => res
  | none =>
  match checkFullHouse cards with
  | some res => res
  | none =>
  match checkFlush cards with
  | some res => res
  | none =>
  match checkStraight cards with
  | some res => res
  | none =>
  match checkThreeOfAKind cards with
  | some res => res
  | none =>
  match checkTwoPair cards with
  | some res => res
  | none =>
  match checkOnePair cards with
  | some res => res
  | none => highCardEval cards

/-- `HandEvaluator.evaluate_hand`. -/
def evaluate_hand (cards : List Card) : Except String (HandRank × List Card) :=
  if cards.length < 5 then Except.error "Need at least 5 cards to evaluate a hand"
  else Except.ok (evalBody cards)

/-! ## Equity tables (`equity_tables.py`) -/

/-- The `Rank.value` character of the Python enum. -/
def rankSymbol : Rank → Char
  | .two => '2'
  | .three => '3'
  | .four => '4'
  | .five => '5'
  | .six => '6'
  | .seven => '7'
  | .eight => '8'
  | .nine => '9'
  | .ten => 'T'
  | .jack => 'J'
  | .queen => 'Q'
  | .king => 'K'
  | .ace => 'A'

/-- The `Suit.value` character of the Python enum. -/
def suitSymbol : Suit → Char
  | .hearts => '♥'
  | .diamonds => '♦'
  | .clubs => '♣'
  | .spades => '♠'

/-- `PREFLOP_EQUITY_MAP`, in source order; the float literals are exact
decimals, embedded as rationals. -/
def PREFLOP_EQUITY_MAP : List (String × ℚ) :=
  [("AA", 852/1000), ("KK", 823/1000), ("QQ", 799/1000), ("JJ", 775/1000),
   ("TT", 751/1000), ("99", 720/1000), ("88", 690/1000), ("77", 661/1000),
   ("66", 633/1000), ("55", 605/1000), ("44", 578/1000), ("33", 551/1000), ("22", 524/1000),
   ("AKs", 670/1000), ("AQs", 662/1000), ("AJs", 654/1000), ("ATs", 647/1000),
   ("A9s", 624/1000), ("A8s", 619/1000), ("A7s", 614/1000), ("A6s", 609/1000),
   ("A5s", 615/1000), ("A4s", 611/1000), ("A3s", 606/1000), ("A2s", 601/1000),
   ("KQs", 632/1000), ("KJs", 624/1000), ("KTs", 617/1000), ("K9s", 593/1000),
   ("QJs", 611/1000), ("QTs", 604/1000), ("Q9s", 580/1000),
   ("JTs", 599/1000), ("J9s", 575/1000),
   ("T9s", 570/1000),
   ("AKo", 653/1000), ("AQo", 644/1000), ("AJo", 635/1000), ("ATo", 627/1000),
   ("A9o", 602/1000), ("A8o", 596/1000), ("A7o", 591/1000), ("A6o", 586/1000),
   ("A5o", 591/1000), ("A4o", 587/1000), ("A3o", 582/1000), ("A2o", 577/1000),
   ("KQo", 612/1000), ("KJo", 603/1000), ("KTo", 595/1000), ("K9o", 569/1000),
   ("QJo", 589/1000), ("QTo", 581/1000), ("Q9o", 555/1000),
   ("JTo", 575/1000), ("J9o", 549/1000),
   ("T9o", 543/1000)]

/-- `get_hand_notation(card1, card2)`: canonical two-card key, high rank
first; pairs have no suffix, else a suited/offsuit marker. -/
def get_hand_label (card1 card2 : Card) : String :=
  let hi := if card1.rank.value_int < card2.rank.value_int then card2 else card1
  let lo := if card1.rank.value_int < card2.rank.value_int then card1 else card2
  if hi.rank = lo.rank then String.mk [rankSymbol hi.rank, rankSymbol lo.rank]
  else if hi.suit = lo.suit then String.mk [rankSymbol hi.rank, rankSymbol lo.rank, 's']
  else String.mk [rankSymbol hi.rank, rankSymbol lo.rank, 'o']

/-- `get_preflop_equity(hand)`: dictionary lookup with default 0.5. -/
def get_preflop_equity (card1 card2 : Card) : ℚ :=
  (PREFLOP_EQUITY_MAP.lookup (get_hand_label card1 card2)).getD (1/2)

/-- `generate_hand_combinations()`: the 169 canonical buckets
(13 pairs + 78 suited + 78 offsuit), keyed by (rank1, rank2, is suited). -/
def HAND_COMBINATIONS : List ((Rank × Rank × Bool) × String) :=
  allRanks.flatMap (fun rank1 =>
    (allRanks.filter (fun rank2 => rank2.value_int ≤ rank1.value_int)).flatMap
      (fun rank2 =>
        if rank1 = rank2 then
          [((rank1, rank2, false), String.mk [rankSymbol rank1, rankSymbol rank2])]
        else
          [((rank1, rank2, true), String.mk [rankSymbol rank1, rankSymbol rank2, 's']),
           ((rank1, rank2, false), String.mk [rankSymbol rank1, rankSymbol rank2, 'o'])]))

/-! ## Outs calculator (`outs.py`) -/

structure DrawInfo where
  draw_type : String
  outs : Nat
  potential_cards : Finset Card

/-- `check_straight_draw` and the evaluator both rebuild
`sorted(set(ranks))` + Ace-low append, but `outs.py` tests membership
(`if 14 in ranks`) rather than the last element. -/
def withWheelMem (vals : List Nat) : List Nat :=
  if 14 ∈ vals then vals ++ [1] else vals

/-- All 52 cards, in `for rank in Rank for suit in Suit` order. -/
def fullDeck : List Card := allRanks.flatMap (fun r => allSuits.map (fun s => Card.mk r s))

/-- `check_flush_draw`: iterates the suit-count dict, which is seeded
with every suit in enum order. -/
def check_flush_draw (player_hand community_cards : List Card) : List DrawInfo :=
  let cards := player_hand ++ community_cards
  allSuits.filterMap (fun s =>
    let count := countSuit cards s
    if count = 4 then
      some { draw_type := "flush_draw", outs := 9,
             potential_cards :=
               ((allRanks.map (fun r => Card.mk r s)).filter (fun c => c ∉ cards)).toFinset }
    else if count = 3 ∧ community_cards.length ≤ 3 then
      some { draw_type := "backdoor_flush_draw", outs := 3,
             potential_cards :=
               ((allRanks.map (fun r => Card.mk r s)).filter (fun c => c ∉ cards)).toFinset }
    else none)

/-- The rank list `check_straight_draw` works over. -/
def straightRanks (player_hand community_cards : List Card) : List Nat :=
  withWheelMem (List.insertionSort (· ≤ ·)
    (dedupFirst ((player_hand ++ community_cards).map (fun c => c.rank.value_int))))

/-- All cards of the given rank values (no exclusion of held cards —
mirrors the source, which does not filter here). -/
def cardsOfValues (vals : List Nat) : Finset Card :=
  ((allRanks.filter (fun r => r.value_int ∈ vals)).flatMap
    (fun r => allSuits.map (fun s => Card.mk r s))).toFinset

/-- The open-ended-straight-draw loop of `check_straight_draw`. -/
def openStraightDraws (ranks : List Nat) : List DrawInfo :=
  (List.range (ranks.length - 3)).filterMap (fun i =>
    let window := (ranks.drop i).take 4
    if listMax window - listMin window = 3 then
      let pranks := [listMin window - 1, listMax window + 1].filter
        (fun r => 2 ≤ r ∧ r ≤ 14)
      if pranks.isEmpty then none
      else some { draw_type := "open_straight_draw", outs := 4 * pranks.length,
                  potential_cards := cardsOfValues pranks }
    else none)

/-- The gutshot loop of `check_straight_draw` (windows `ranks[i:j+1]`
for `j in range(i+3, min(i+5, len(ranks)))`). -/
def gutshotDraws (ranks : List Nat) : List DrawInfo :=
  ((List.range (ranks.length - 3)).flatMap (fun i =>
    (List.range' (i + 3) (min (i + 5) ranks.length - (i + 3))).map (fun j => (i, j)))).filterMap
    (fun ij =>
      let window := (ranks.drop ij.1).take (ij.2 + 1 - ij.1)
      if window.length = 4 ∧ listMax window - listMin window = 4 then
        match (List.range' (listMin window) (listMax window - listMin window)).find?
            (fun r => r ∉ window) with
        | some missing =>
          if 2 ≤ missing ∧ missing ≤ 14 then
            some { draw_type := "gutshot_straight_draw", outs := 4,
                   potential_cards := cardsOfValues [missing] }
          else none
        | none => none
      else none)

def check_straight_draw (player_hand community_cards : List Card) : List DrawInfo :=
  let ranks := straightRanks player_hand community_cards
  openStraightDraws ranks ++ gutshotDraws ranks

/-- `check_pair_draws` for a two-card hole (the callers of interest all
pass exactly two hole cards; the source indexes `player_hand[0/1]`). -/
def check_pair_draws (h1 h2 : Card) (community_cards : List Card) : List DrawInfo :=
  let setDraws :=
    if h1.rank = h2.rank then
      [{ draw_type := "pair_to_set", outs := 2,
         potential_cards :=
           ((allSuits.map (fun s => Card.mk h1.rank s)).filter
             (fun c => c ∉ [h1, h2] ++ community_cards)).toFinset : DrawInfo }]
    else []
  let overDraws :=
    if community_cards.isEmpty ∧ 10 < h1.rank.value_int ∧ 10 < h2.rank.value_int ∧
        h1.rank ≠ h2.rank then
      [{ draw_type := "two_overcards", outs := 6,
         potential_cards :=
           (([h1.rank, h2.rank].flatMap (fun r => allSuits.map (fun s => Card.mk r s))).filter
             (fun c => c ∉ [h1, h2])).toFinset : DrawInfo }]
    else []
  setDraws ++ overDraws

def check_full_house_draws (h1 h2 : Card) (community_cards : List Card) : List DrawInfo :=
  let all_cards := [h1, h2] ++ community_cards
  let tripsDraws :=
    match (presentRanks all_cards).find? (fun r => countRank all_cards r = 3) with
    | some _ =>
      let remaining := (presentRanks all_cards).filter (fun r => countRank all_cards r = 1)
      let potential :=
        ((remaining.flatMap (fun r => allSuits.map (fun s => Card.mk r s))).filter
          (fun c => c ∉ all_cards)).toFinset
      if potential.card = 0 then []
      else [{ draw_type := "trips_to_full_house", outs := potential.card,
              potential_cards := potential : DrawInfo }]
    | none => []
  let pairs := (presentRanks all_cards).filter (fun r => countRank all_cards r = 2)
  let pairDraws :=
    if pairs.length = 2 then
      pairs.filterMap (fun pr =>
        let potential :=
          ((allSuits.map (fun s => Card.mk pr s)).filter (fun c => c ∉ all_cards)).toFinset
        if potential.card = 0 then none
        else some { draw_type := "two_pair_to_full_house", outs := potential.card,
                    potential_cards := potential })
    else []
  tripsDraws ++ pairDraws

def check_quads_draw (h1 h2 : Card) (community_cards : List Card) : List DrawInfo :=
  let all_cards := [h1, h2] ++ community_cards
  match (presentRanks all_cards).find? (fun r => countRank all_cards r = 3) with
  | some tr =>
    let potential :=
      ((allSuits.map (fun s => Card.mk tr s)).filter (fun c => c ∉ all_cards)).toFinset
    if potential.card = 0 then []
    else [{ draw_type := "set_to_quads", outs := potential.card,
            potential_cards := potential }]
  | none => []

def check_two_pair_draws (h1 h2 : Card) (community_cards : List Card) : List DrawInfo :=
  let all_cards := [h1, h2] ++ community_cards
  let pairs := (presentRanks all_cards).filter (fun r => countRank all_cards r = 2)
  if pairs.length = 1 then
    let unpaired := (presentRanks all_cards).filter (fun r => countRank all_cards r = 1)
    let potential :=
      ((unpaired.flatMap (fun r => allSuits.map (fun s => Card.mk r s))).filter
        (fun c => c ∉ all_cards)).toFinset
    if potential.card = 0 then []
    else [{ draw_type := "pair_to_two_pair", outs := potential.card,
            potential_cards := potential }]
  else []

def check_combo_draws (h1 h2 : Card) (community_cards : List Card) : List DrawInfo :=
  let all_cards := [h1, h2] ++ community_cards
  let has_pair := (presentRanks all_cards).any (fun r => countRank all_cards r = 2)
  let gutshot_draws := check_straight_draw [h1, h2] community_cards
  let has_gutshot := gutshot_draws.any (fun d => d.draw_type = "gutshot_straight_draw")
  if has_pair ∧ has_gutshot then
    let potential :=
      (gutshot_draws.filter (fun d => d.draw_type = "gutshot_straight_draw")).foldl
        (fun acc d => acc ∪ d.potential_cards) ∅
    [{ draw_type := "pair_plus_gutshot", outs := potential.card,
       potential_cards := potential }]
  else []

/-- Union of every draw's improving-card set. -/
def drawsUnion (draws : List DrawInfo) : Finset Card :=
  draws.foldl (fun acc d => acc ∪ d.potential_cards) ∅

/-- `OutsCalculator.calculate_outs` for a two-card hole. -/
def calculate_outs (h1 h2 : Card) (community_cards : List Card) :
    Nat × List DrawInfo :=
  let all_draws :=
    check_flush_draw [h1, h2] community_cards ++
    check_straight_draw [h1, h2] community_cards ++
    check_pair_draws h1 h2 community_cards ++
    check_full_house_draws h1 h2 community_cards ++
    check_quads_draw h1 h2 community_cards ++
    check_two_pair_draws h1 h2 community_cards ++
    check_combo_draws h1 h2 community_cards
  ((drawsUnion all_draws).card, all_draws)

/-! ## Monte Carlo simulator (`simulator.py`) -/

/-- `str(card)` = rank symbol + suit symbol. -/
def cardStr (c : Card) : String := String.mk [rankSymbol c.rank, suitSymbol c.suit]

/-- Python string `<=`: codepoint-lexicographic comparison. -/
def charsLe : List Char → List Char → Bool
  | [], _ => true
  | _ :: _, [] => false
  | a :: as, b :: bs =>
    if a.toNat < b.toNat then true
    else if b.toNat < a.toNat then false
    else charsLe as bs

def strLe (a b : String) : Prop := charsLe a.data b.data = true

instance : DecidableRel strLe := fun a b => by unfold strLe; infer_instance

/-- `''.join(sorted(str(card) for card in cards))`. -/
def sortedCardKey (cards : List Card) : String :=
  String.join (List.insertionSort strLe (cards.map cardStr))

/-- `MonteCarloSimulator._get_cache_key`. -/
def get_cache_key (player_hand community_cards : List Card) (num_opponents : Nat) : String :=
  sortedCardKey player_hand ++ "|" ++ sortedCardKey community_cards ++ "|" ++
    toString num_opponents

/-- Per-run tallies of `_vectorized_simulate` (`stats` dict); Python
ints, so modelled on ℤ. -/
structure SimStats where
  wins : Int
  splits : Int
  losses : Int
deriving DecidableEq

def SimStats.add (a b : SimStats) : SimStats :=
  ⟨a.wins + b.wins, a.splits + b.splits, a.losses + b.losses⟩

/-- One batch of the simulation loop, abstracted over the sampled
outcomes: each trial is the pair (player score, min over the opponents'
scores) produced by the treys oracle, where lower is stronger.
`wins`/`splits` count strict wins and ties; `losses` is the remainder,
exactly as in the source. -/
def tallyBatch (batch : List (Int × Int)) : SimStats :=
  let wins : Int := batch.countP (fun t => t.1 < t.2)
  let splits : Int := batch.countP (fun t => t.1 = t.2)
  ⟨wins, splits, (batch.length : Int) - wins - splits⟩

/-- `range(0, num_simulations, batch_size)` slicing of the trial
sequence (fuel recursion on the list length). -/
def chunksOfAux {α} : Nat → Nat → List α → List (List α)
  | 0, _, _ => []
  | _, _, [] => []
  | fuel + 1, bs, l@(_ :: _) => l.take bs :: chunksOfAux fuel bs (l.drop bs)

def chunksOf {α} (bs : Nat) (l : List α) : List (List α) := chunksOfAux l.length bs l

/-- The batched tallying of `_vectorized_simulate`. -/
def vectorizedTally (trials : List (Int × Int)) (batch_size : Nat) : SimStats :=
  (chunksOf batch_size trials).foldl (fun acc b => acc.add (tallyBatch b)) ⟨0, 0, 0⟩

/-- `_vectorized_simulate`, abstracted over the per-trial oracle
outcomes: returns (win_probability, stats). `num_simulations` is the
number of trials generated, i.e. `trials.length`. -/
def vectorized_simulate (trials : List (Int × Int)) (batch_size : Nat) :
    ℚ × SimStats :=
  let stats := vectorizedTally trials batch_size
  (((stats.wins : ℚ) + (1/2 : ℚ) * (stats.splits : ℚ)) / (trials.length : ℚ), stats)

/-- A cached simulation result (win probability plus the stats dict). -/
structure SimResult where
  winProb : ℚ
  stats : SimStats
deriving DecidableEq

/-- The process-wide `_result_cache`, as an association list; the source
only ever inserts a key that was just looked up and found absent, so
prepending is equivalent to dict assignment. -/
def cacheLookup : List (String × SimResult) → String → Option SimResult
  | [], _ => none
  | (k, v) :: rest, key => if k = key then some v else cacheLookup rest key

/-- `MonteCarloSimulator.simulate`. The value `fresh` stands for the
result `_vectorized_simulate` would produce on this call (it depends on
the random stream, which the embedding keeps abstract). Returns the
result together with the updated cache. -/
def simulate (cache : List (String × SimResult)) (fresh : SimResult)
    (player_hand community_cards : List Card) (num_opponents : Nat)
    (use_cache : Bool) : Except String (SimResult × List (String × SimResult)) :=
  if player_hand.length ≠ 2 then
    Except.error "Player hand must contain exactly 2 cards"
  else if 5 < community_cards.length then
    Except.error "Cannot have more than 5 community cards"
  else if use_cache then
    let key := get_cache_key player_hand community_cards num_opponents
    match cacheLookup cache key with
    | some r => Except.ok (r, cache)
    | none => Except.ok (fresh, (key, fresh) :: cache)
  else Except.ok (fresh, cache)

/-! ## Claims -/

/-! ### C1 — wheel straight detection -/

/-- The minimal wheel input A♥ 2♦ 3♣ 4♠ 5♥: distinct rank values
include Ace, 2, 3, 4, 5; no flush and no higher straight. -/
def wheelCards : List Card :=
  [⟨.ace, .hearts⟩, ⟨.two, .diamonds⟩, ⟨.three, .clubs⟩, ⟨.four, .spades⟩, ⟨.five, .hearts⟩]

/-- Claim C1: the spec says A-2-3-4-5 is detected as a Straight (Ace
counted low).  The code appends the low Ace at the END of the sorted
value list (`values.append(1)`), so `[2,3,4,5,14,1]` has no consecutive
5-slice and the wheel is never found: the hand comes back HIGH_CARD.
The code comment (`Handle Ace-low straight`) and the spec agree on the
intent, so this is a code bug. -/
theorem C1_wheel_not_detected :
    evaluate_hand wheelCards =
      Except.ok (HandRank.highCard,
        [⟨.ace, .hearts⟩, ⟨.five, .hearts⟩, ⟨.four, .spades⟩, ⟨.three, .clubs⟩,
         ⟨.two, .diamonds⟩]) ∧
    withWheel (sortedVals wheelCards) = [2, 3, 4, 5, 14, 1] ∧
    straightsOf wheelCards = [] :=
  ⟨rfl, by decide, by decide⟩

/-! ### C2 — full house selection -/

/-- Two triples (Aces and Kings) plus a Queen: the spec says Full House
(lower triple supplies the pair). -/
def twoTripsCards : List Card :=
  [⟨.ace, .hearts⟩, ⟨.ace, .diamonds⟩, ⟨.ace, .clubs⟩,
   ⟨.king, .hearts⟩, ⟨.king, .diamonds⟩, ⟨.king, .clubs⟩, ⟨.queen, .hearts⟩]

/-- A triple of Aces with a pair of Twos listed first and a pair of
Kings: the spec says the HIGHEST remaining pair (Kings) completes the
full house. -/
def lowPairFirstCards : List Card :=
  [⟨.ace, .hearts⟩, ⟨.ace, .diamonds⟩, ⟨.two, .clubs⟩, ⟨.two, .diamonds⟩,
   ⟨.ace, .clubs⟩, ⟨.king, .hearts⟩, ⟨.king, .diamonds⟩]

/-- Claim C2: the spec's full house is the highest triple plus the
highest remaining pair, including the two-triples case.  The code (a)
requires some rank to have count exactly 2 (`2 in rank_count.values()`),
so two triples skip the branch entirely and fall through to THREE of a
kind, and (b) picks the FIRST rank of count 2 in insertion order
(`next(...)`), not the highest:  with the Twos seen before the Kings the
kickers come back A,A,A,2,2 instead of A,A,A,K,K.  Both contradict the
spec, which states the clear intent; code bug. -/
theorem C2_full_house_bugs :
    (evaluate_hand twoTripsCards).map Prod.fst = Except.ok HandRank.threeOfAKind ∧
    (evaluate_hand lowPairFirstCards).map Prod.fst = Except.ok HandRank.fullHouse ∧
    (evaluate_hand lowPairFirstCards).map
        (fun res => res.2.map (fun c => c.rank.value_int)) =
      Except.ok [14, 14, 14, 2, 2] :=
  ⟨rfl, rfl, rfl⟩

/-! ### C7 — input validation -/

/-- Claim C7: `evaluate_hand` rejects inputs of fewer than 5 cards, and
`simulate` rejects a hole that is not exactly 2 cards or a board of more
than 5 cards, in each case before any computation (the embedding
returns the error before touching the cache or the draw logic) and
without correcting the input. -/
theorem C7_invalid_input_rejected :
    (∀ cards : List Card, cards.length < 5 →
      evaluate_hand cards = Except.error "Need at least 5 cards to evaluate a hand") ∧
    (∀ (cache : List (String × SimResult)) (fresh : SimResult)
        (hole board : List Card) (nOpp : Nat) (uc : Bool), hole.length ≠ 2 →
      simulate cache fresh hole board nOpp uc =
        Except.error "Player hand must contain exactly 2 cards") ∧
    (∀ (cache : List (String × SimResult)) (fresh : SimResult)
        (hole board : List Card) (nOpp : Nat) (uc : Bool),
        hole.length = 2 → 5 < board.length →
      simulate cache fresh hole board nOpp uc =
        Except.error "Cannot have more than 5 community cards") := by
  refine ⟨fun cards h => ?_, fun _ _ _ _ _ _ h => ?_, fun _ _ hole board _ _ h h5 => ?_⟩
  · simp [evaluate_hand, h]
  · simp [simulate, h]
  · simp [simulate, h, h5]

theorem C7_witness :
    evaluate_hand [⟨.ace, .hearts⟩] =
        Except.error "Need at least 5 cards to evaluate a hand" ∧
    simulate [] ⟨1/2, 0, 0, 0⟩ [⟨.ace, .hearts⟩] [] 1 true =
        Except.error "Player hand must contain exactly 2 cards" ∧
    simulate [] ⟨1/2, 0, 0, 0⟩ [⟨.ace, .hearts⟩, ⟨.king, .hearts⟩]
        [⟨.two, .clubs⟩, ⟨.three, .clubs⟩, ⟨.four, .clubs⟩, ⟨.five, .clubs⟩,
         ⟨.six, .clubs⟩, ⟨.seven, .clubs⟩] 1 true =
        Except.error "Cannot have more than 5 community cards" :=
  ⟨C7_invalid_input_rejected.1 _ (by decide),
   C7_invalid_input_rejected.2.1 _ _ _ [] 1 true (by decide),
   C7_invalid_input_rejected.2.2 _ _ _ _ 1 true (by decide) (by decide)⟩

/-! ### C6 — preflop equity table coverage -/

/-- Claim C6 counterexample: 7♥ and 2♦ are distinct cards whose
canonical bucket "72o" has NO entry in `PREFLOP_EQUITY_MAP`, so
`get_preflop_equity` falls back to the 0.5 default — refuting the claim
that all 169 canonical buckets are stored. -/
theorem C6_counterexample :
    (⟨.seven, .hearts⟩ : Card) ≠ ⟨.two, .diamonds⟩ ∧
    get_hand_label ⟨.seven, .hearts⟩ ⟨.two, .diamonds⟩ = "72o" ∧
    PREFLOP_EQUITY_MAP.lookup "72o" = none ∧
    get_preflop_equity ⟨.seven, .hearts⟩ ⟨.two, .diamonds⟩ = 1/2 :=
  ⟨by decide, by decide, by decide, rfl⟩

set_option maxRecDepth 8000 in
/-- Claim C6 amended: the table stores only 57 of the 169 canonical
starting-hand buckets — all 13 pairs but just 22 suited and 22 offsuit
notations; for any other pair of distinct cards `get_preflop_equity`
returns the 0.5 default (e.g. 7♥ 2♦). -/
theorem C6_amended :
    PREFLOP_EQUITY_MAP.length = 57 ∧
    HAND_COMBINATIONS.length = 169 ∧
    ((HAND_COMBINATIONS.map (fun e => e.2)).filter
        (fun s => (PREFLOP_EQUITY_MAP.lookup s).isSome)).length = 57 ∧
    (HAND_COMBINATIONS.filter
        (fun e => e.1.1 = e.1.2.1 ∧ (PREFLOP_EQUITY_MAP.lookup e.2).isSome)).length = 13 ∧
    (HAND_COMBINATIONS.filter (fun e => e.1.1 = e.1.2.1)).length = 13 ∧
    (HAND_COMBINATIONS.filter
        (fun e => e.1.2.2 = true ∧ (PREFLOP_EQUITY_MAP.lookup e.2).isSome)).length = 22 ∧
    (HAND_COMBINATIONS.filter
        (fun e => e.1.2.2 = false ∧ e.1.1 ≠ e.1.2.1 ∧
          (PREFLOP_EQUITY_MAP.lookup e.2).isSome)).length = 22 ∧
    get_preflop_equity ⟨.seven, .hearts⟩ ⟨.two, .diamonds⟩ = 1/2 :=
  ⟨by decide, by decide, by decide, by decide, by decide, by decide, by decide, rfl⟩

/-! ### C5 — simulation tally invariant -/

def statsTotal (s : SimStats) : Int := s.wins + s.splits + s.losses

theorem tallyBatch_total (batch : List (Int × Int)) :
    statsTotal (tallyBatch batch) = batch.length := by
  simp [statsTotal, tallyBatch]

theorem chunksOfAux_length_sum {α} (bs : Nat) (hbs : 1 ≤ bs) :
    ∀ (fuel : Nat) (l : List α), l.length ≤ fuel →
      ((chunksOfAux fuel bs l).map List.length).sum = l.length := by
  intro fuel
  induction fuel with
  | zero =>
    intro l hl
    cases l with
    | nil => simp [chunksOfAux]
    | cons a t => simp at hl
  | succ n ih =>
    intro l hl
    cases l with
    | nil => simp [chunksOfAux]
    | cons a t =>
      have hdrop : ((a :: t).drop bs).length ≤ n := by
        simp only [List.length_drop]
        simp only [List.length_cons] at hl ⊢
        omega
      simp only [chunksOfAux, List.map_cons, List.sum_cons, ih _ hdrop,
        List.length_take, List.length_drop]
      simp only [List.length_cons]
      omega

theorem chunksOf_length_sum {α} (bs : Nat) (hbs : 1 ≤ bs) (l : List α) :
    ((chunksOf bs l).map List.length).sum = l.length :=
  chunksOfAux_length_sum bs hbs l.length l (le_refl _)

theorem foldl_tally_total (chunks : List (List (Int × Int))) :
    ∀ init : SimStats,
      statsTotal (chunks.foldl (fun acc b => acc.add (tallyBatch b)) init) =
        statsTotal init + ((chunks.map List.length).sum : Int) := by
  induction chunks with
  | nil => intro init; simp
  | cons b t ih =>
    intro init
    simp only [List.foldl_cons, ih, List.map_cons, List.sum_cons]
    simp [statsTotal, SimStats.add, tallyBatch]
    ring

/-- Claim C5: for every run of the batched simulation loop on
`numSimulations ≥ 1` sampled trial outcomes (each the pair of the
player's and the best opponent's oracle score) and any batch size ≥ 1,
the returned statistics satisfy wins + splits + losses = numSimulations
exactly, and the returned win probability equals
(wins + 0.5·splits) / numSimulations. -/
theorem C5_tally_invariant (trials : List (Int × Int))
    (numSimulations batch_size : Nat)
    (hn : trials.length = numSimulations) (hpos : 1 ≤ numSimulations)
    (hbs : 1 ≤ batch_size) :
    (vectorized_simulate trials batch_size).2.wins +
      (vectorized_simulate trials batch_size).2.splits +
      (vectorized_simulate trials batch_size).2.losses = (numSimulations : Int) ∧
    (vectorized_simulate trials batch_size).1 =
      (((vectorized_simulate trials batch_size).2.wins : ℚ) +
        (1/2 : ℚ) * ((vectorized_simulate trials batch_size).2.splits : ℚ)) /
        (numSimulations : ℚ) := by
  constructor
  · have h1 := foldl_tally_total (chunksOf batch_size trials) ⟨0, 0, 0⟩
    have h2 := chunksOf_length_sum batch_size hbs trials
    rw [h2, hn] at h1
    simpa [vectorized_simulate, vectorizedTally, statsTotal] using h1
  · simp [vectorized_simulate, vectorizedTally, hn]

theorem C5_witness :
    (vectorized_simulate [(1, 2), (2, 2), (3, 2)] 2).2.wins +
      (vectorized_simulate [(1, 2), (2, 2), (3, 2)] 2).2.splits +
      (vectorized_simulate [(1, 2), (2, 2), (3, 2)] 2).2.losses = (3 : Int) ∧
    (vectorized_simulate [(1, 2), (2, 2), (3, 2)] 2).1 =
      (((vectorized_simulate [(1, 2), (2, 2), (3, 2)] 2).2.wins : ℚ) +
        (1/2 : ℚ) * ((vectorized_simulate [(1, 2), (2, 2), (3, 2)] 2).2.splits : ℚ)) /
        ((3 : Nat) : ℚ) :=
  C5_tally_invariant [(1, 2), (2, 2), (3, 2)] 3 2 (by decide) (by decide) (by decide)

/-! ### C4 — outs aggregation -/

/-- Right fold union of all improving-card sets. -/
def unionR (l : List DrawInfo) : Finset Card :=
  l.foldr (fun d acc => d.potential_cards ∪ acc) ∅

/-- Sum of the individual improving-set sizes. -/
def sumPotential (l : List DrawInfo) : Nat :=
  (l.map (fun d => d.potential_cards.card)).sum

theorem foldl_union_eq (l : List DrawInfo) :
    ∀ acc : Finset Card, l.foldl (fun a d => a ∪ d.potential_cards) acc = acc ∪ unionR l := by
  induction l with
  | nil => intro acc; simp [unionR]
  | cons d t ih =>
    intro acc
    simp only [List.foldl_cons, ih, unionR, List.foldr_cons]
    rw [Finset.union_assoc]

theorem drawsUnion_eq_unionR (l : List DrawInfo) : drawsUnion l = unionR l := by
  rw [drawsUnion, foldl_union_eq]
  simp

theorem disjoint_unionR (s : Finset Card) (l : List DrawInfo) :
    Disjoint s (unionR l) ↔ ∀ d ∈ l, Disjoint s d.potential_cards := by
  induction l with
  | nil => simp [unionR]
  | cons d t ih =>
    simp only [unionR, List.foldr_cons, Finset.disjoint_union_right, List.mem_cons]
    constructor
    · rintro ⟨hd, ht⟩ e (rfl | he)
      · exact hd
      · exact (ih.mp ht) e he
    · intro h
      exact ⟨h d (Or.inl rfl), ih.mpr (fun e he => h e (Or.inr he))⟩

theorem card_unionR_le (l : List DrawInfo) : (unionR l).card ≤ sumPotential l := by
  induction l with
  | nil => simp [unionR, sumPotential]
  | cons d t ih =>
    simp only [unionR, List.foldr_cons, sumPotential, List.map_cons, List.sum_cons]
    calc (d.potential_cards ∪ unionR t).card
        ≤ d.potential_cards.card + (unionR t).card := Finset.card_union_le _ _
      _ ≤ d.potential_cards.card + sumPotential t := by
          exact Nat.add_le_add_left ih _

theorem unionR_cons (d : DrawInfo) (t : List DrawInfo) :
    unionR (d :: t) = d.potential_cards ∪ unionR t := rfl

theorem sumPotential_cons (d : DrawInfo) (t : List DrawInfo) :
    sumPotential (d :: t) = d.potential_cards.card + sumPotential t := by
  simp [sumPotential]

theorem card_unionR_eq_iff (l : List DrawInfo) :
    (unionR l).card = sumPotential l ↔
      l.Pairwise (fun d e => Disjoint d.potential_cards e.potential_cards) := by
  induction l with
  | nil => simp [unionR, sumPotential]
  | cons d t ih =>
    rw [unionR_cons, sumPotential_cons, List.pairwise_cons]
    constructor
    · intro h
      have hle : (unionR t).card ≤ sumPotential t := card_unionR_le t
      have hadd := Finset.card_union_add_card_inter d.potential_cards (unionR t)
      have hinter : (d.potential_cards ∩ unionR t).card = 0 ∧
          (unionR t).card = sumPotential t := by
        constructor <;> omega
      have hdisj : Disjoint d.potential_cards (unionR t) := by
        rw [Finset.disjoint_iff_inter_eq_empty]
        exact Finset.card_eq_zero.mp hinter.1
      exact ⟨(disjoint_unionR _ _).mp hdisj, ih.mp hinter.2⟩
    · rintro ⟨hd, hp⟩
      have hdisj : Disjoint d.potential_cards (unionR t) := (disjoint_unionR _ _).mpr hd
      rw [Finset.card_union_of_disjoint hdisj, ih.mpr hp]

/-- Claim C4 counterexample: hole A♥ K♥ on the board [2♥] yields a
single backdoor flush draw whose `outs` field is 3 while its improving
set has 10 cards; totalOuts = 10 > 3 = Σ DrawInfo.outs, even though no
two draws share a card (there is only one draw).  Both directions of
the claimed relation fail on the `outs` fields. -/
theorem C4_counterexample :
    (calculate_outs ⟨.ace, .hearts⟩ ⟨.king, .hearts⟩ [⟨.two, .hearts⟩]).1 = 10 ∧
    ((calculate_outs ⟨.ace, .hearts⟩ ⟨.king, .hearts⟩ [⟨.two, .hearts⟩]).2.map
      (fun d => d.outs)).sum = 3 ∧
    ((calculate_outs ⟨.ace, .hearts⟩ ⟨.king, .hearts⟩ [⟨.two, .hearts⟩]).2.map
      (fun d => d.draw_type)).length = 1 ∧
    ¬ ((calculate_outs ⟨.ace, .hearts⟩ ⟨.king, .hearts⟩ [⟨.two, .hearts⟩]).1 ≤
        ((calculate_outs ⟨.ace, .hearts⟩ ⟨.king, .hearts⟩ [⟨.two, .hearts⟩]).2.map
          (fun d => d.outs)).sum) := by
  refine ⟨by decide, by decide, by decide, by decide⟩

/-- Claim C4 amended: totalOuts is the cardinality of the union of all
DrawInfo improving-card sets, and totalOuts ≤ the sum of the individual
improving-SET SIZES (not the `outs` fields, which can disagree with the
set size, e.g. backdoor flush draws store outs=3 with 10 cards), with
equality exactly when no two draws share an improving card. -/
theorem C4_amended (h1 h2 : Card) (community : List Card)
    (hb : community.length ≤ 5) :
    (calculate_outs h1 h2 community).1 =
      (drawsUnion (calculate_outs h1 h2 community).2).card ∧
    (calculate_outs h1 h2 community).1 ≤
      sumPotential (calculate_outs h1 h2 community).2 ∧
    ((calculate_outs h1 h2 community).1 =
        sumPotential (calculate_outs h1 h2 community).2 ↔
      (calculate_outs h1 h2 community).2.Pairwise
        (fun d e => Disjoint d.potential_cards e.potential_cards)) := by
  refine ⟨rfl, ?_, ?_⟩
  · show (drawsUnion (calculate_outs h1 h2 community).2).card ≤ _
    rw [drawsUnion_eq_unionR]
    exact card_unionR_le _
  · show (drawsUnion (calculate_outs h1 h2 community).2).card = _ ↔ _
    rw [drawsUnion_eq_unionR]
    exact card_unionR_eq_iff _

theorem C4_amended_witness :
    (calculate_outs ⟨.ace, .hearts⟩ ⟨.ace, .diamonds⟩ []).1 =
      (drawsUnion (calculate_outs ⟨.ace, .hearts⟩ ⟨.ace, .diamonds⟩ []).2).card ∧
    (calculate_outs ⟨.ace, .hearts⟩ ⟨.ace, .diamonds⟩ []).1 ≤
      sumPotential (calculate_outs ⟨.ace, .hearts⟩ ⟨.ace, .diamonds⟩ []).2 ∧
    ((calculate_outs ⟨.ace, .hearts⟩ ⟨.ace, .diamonds⟩ []).1 =
        sumPotential (calculate_outs ⟨.ace, .hearts⟩ ⟨.ace, .diamonds⟩ []).2 ↔
      (calculate_outs ⟨.ace, .hearts⟩ ⟨.ace, .diamonds⟩ []).2.Pairwise
        (fun d e => Disjoint d.potential_cards e.potential_cards)) :=
  C4_amended ⟨.ace, .hearts⟩ ⟨.ace, .diamonds⟩ [] (by decide)

/-! ### C9 — empty board yields only preflop draws -/

theorem check_flush_draw_preflop (h1 h2 : Card) : check_flush_draw [h1, h2] [] = [] := by
  unfold check_flush_draw
  apply List.filterMap_eq_nil_iff.mpr
  intro s hs
  have hc : countSuit ([h1, h2] ++ []) s ≤ 2 := by
    simpa [countSuit] using
      List.countP_le_length (fun c => decide (c.suit = s)) (l := [h1, h2] ++ [])
  dsimp only
  split_ifs with h4 h3
  · omega
  · exact absurd h3.1 (by omega)
  · rfl

theorem dedupFirstAux_length_le {α} [DecidableEq α] :
    ∀ (l seen : List α), (dedupFirstAux l seen).length ≤ l.length := by
  intro l
  induction l with
  | nil => intro seen; simp [dedupFirstAux]
  | cons a t ih =>
    intro seen
    simp only [dedupFirstAux]
    split_ifs
    · exact le_trans (ih seen) (by simp)
    · simpa using Nat.succ_le_succ (ih (a :: seen))

theorem straightRanks_preflop_len (h1 h2 : Card) : (straightRanks [h1, h2] []).length ≤ 3 := by
  have hd : (dedupFirst (([h1, h2] ++ []).map (fun c : Card => c.rank.value_int))).length ≤ 2 := by
    simpa [dedupFirst] using
      dedupFirstAux_length_le (l := ([h1, h2] ++ []).map (fun c : Card => c.rank.value_int)) []
  unfold straightRanks withWheelMem
  split_ifs
  · rw [List.length_append, List.length_insertionSort]
    simp only [List.length_singleton]
    omega
  · rw [List.length_insertionSort]
    omega

theorem check_straight_draw_preflop (h1 h2 : Card) : check_straight_draw [h1, h2] [] = [] := by
  have hlen := straightRanks_preflop_len h1 h2
  have h0 : (straightRanks [h1, h2] []).length - 3 = 0 := by omega
  unfold check_straight_draw openStraightDraws gutshotDraws
  dsimp only
  rw [h0]
  simp

theorem countRank_pair_le (h1 h2 : Card) (r : Rank) : countRank ([h1, h2] ++ []) r ≤ 2 := by
  simpa [countRank] using
    List.countP_le_length (fun c => decide (c.rank = r)) (l := [h1, h2] ++ [])

theorem no_trips_preflop (h1 h2 : Card) (l : List Rank) :
    l.find? (fun r => countRank ([h1, h2] ++ []) r = 3) = none := by
  apply List.find?_eq_none.mpr
  intro r _
  have := countRank_pair_le h1 h2 r
  simp only [decide_eq_true_eq]
  omega

theorem no_two_pairs_preflop (h1 h2 : Card) :
    ((presentRanks ([h1, h2] ++ [])).filter
      (fun r => countRank ([h1, h2] ++ []) r = 2)).length ≠ 2 := by
  by_cases hr : h1.rank = h2.rank
  · simp [presentRanks, dedupFirst, dedupFirstAux, countRank, hr]
  · simp [presentRanks, dedupFirst, dedupFirstAux, countRank, hr, Ne.symm hr]

theorem check_full_house_preflop (h1 h2 : Card) : check_full_house_draws h1 h2 [] = [] := by
  unfold check_full_house_draws
  dsimp only
  rw [no_trips_preflop]
  have := no_two_pairs_preflop h1 h2
  dsimp only
  split_ifs with h
  · exact absurd h this
  · rfl

theorem check_quads_preflop (h1 h2 : Card) : check_quads_draw h1 h2 [] = [] := by
  unfold check_quads_draw
  dsimp only
  rw [no_trips_preflop]

theorem check_two_pair_preflop (h1 h2 : Card) : check_two_pair_draws h1 h2 [] = [] := by
  unfold check_two_pair_draws
  by_cases hr : h1.rank = h2.rank
  · simp [presentRanks, dedupFirst, dedupFirstAux, countRank, hr]
  · simp [presentRanks, dedupFirst, dedupFirstAux, countRank, hr, Ne.symm hr]

theorem check_combo_preflop (h1 h2 : Card) : check_combo_draws h1 h2 [] = [] := by
  unfold check_combo_draws
  rw [check_straight_draw_preflop]
  simp

/-- Claim C9: for every two-card hole on an empty board, every draw
reported by `calculate_outs` is `pair_to_set` or `two_overcards`: with
only two cards no suit reaches 3, the rank list is too short for any
straight window, no rank reaches count 3, no two ranks have pairs, a
pocket pair leaves no unpaired rank for `pair_to_two_pair`, and with no
gutshot there is no combo draw. -/
theorem C9_empty_board_only_preflop_draws (h1 h2 : Card) (d : DrawInfo)
    (hd : d ∈ (calculate_outs h1 h2 []).2) :
    d.draw_type = "pair_to_set" ∨ d.draw_type = "two_overcards" := by
  unfold calculate_outs at hd
  rw [check_flush_draw_preflop, check_straight_draw_preflop, check_full_house_preflop,
    check_quads_preflop, check_two_pair_preflop, check_combo_preflop] at hd
  simp only [List.nil_append, List.append_nil] at hd
  unfold check_pair_draws at hd
  dsimp only at hd
  split_ifs at hd with ha hb hb
  · rcases List.mem_append.mp hd with h | h
    · left; rw [List.mem_singleton.mp h]
    · right; rw [List.mem_singleton.mp h]
  · rcases List.mem_append.mp hd with h | h
    · left; rw [List.mem_singleton.mp h]
    · simp at h
  · rcases List.mem_append.mp hd with h | h
    · simp at h
    · right; rw [List.mem_singleton.mp h]
  · rcases List.mem_append.mp hd with h | h <;> simp at h

/-- The single draw produced for pocket Aces preflop. -/
def pocketAceSetDraw : DrawInfo :=
  { draw_type := "pair_to_set", outs := 2,
    potential_cards :=
      ((allSuits.map (fun s => Card.mk Rank.ace s)).filter
        (fun c => c ∉ [(⟨.ace, .hearts⟩ : Card), ⟨.ace, .diamonds⟩] ++ ([] : List Card))).toFinset }

theorem C9_witness :
    pocketAceSetDraw.draw_type = "pair_to_set" ∨
      pocketAceSetDraw.draw_type = "two_overcards" :=
  C9_empty_board_only_preflop_draws ⟨.ace, .hearts⟩ ⟨.ace, .diamonds⟩ pocketAceSetDraw
    (List.Mem.head _)

/-! ### C8 — cached simulate determinism -/

theorem charPoint_inj : ∀ a b : Char, a.toNat = b.toNat → a = b := by
  intro a b h
  exact Char.eq_of_val_eq (UInt32.eq_of_val_eq (Fin.eq_of_val_eq h))

theorem charsLe_total : ∀ a b : List Char, charsLe a b = true ∨ charsLe b a = true := by
  intro a
  induction a with
  | nil => intro b; left; rfl
  | cons x xs ih =>
    intro b
    cases b with
    | nil => right; rfl
    | cons y ys =>
      by_cases hxy : x.toNat < y.toNat
      · left; simp [charsLe, hxy]
      · by_cases hyx : y.toNat < x.toNat
        · right; simp [charsLe, hyx]
        · rcases ih ys with h | h
          · left; simpa [charsLe, hxy, hyx] using h
          · right; simpa [charsLe, hxy, hyx] using h

theorem charsLe_trans :
    ∀ a b c : List Char, charsLe a b = true → charsLe b c = true → charsLe a c = true := by
  intro a
  induction a with
  | nil => intro b c _ _; rfl
  | cons x xs ih =>
    intro b c hab hbc
    cases b with
    | nil => simp [charsLe] at hab
    | cons y ys =>
      cases c with
      | nil => simp [charsLe] at hbc
      | cons z zs =>
        simp only [charsLe] at hab hbc ⊢
        by_cases hxy : x.toNat < y.toNat
        · by_cases hyz : y.toNat < z.toNat
          · simp [show x.toNat < z.toNat by omega]
          · by_cases hzy : z.toNat < y.toNat
            · simp [hyz, hzy] at hbc
            · simp [show x.toNat < z.toNat by omega]
        · by_cases hyx : y.toNat < x.toNat
          · simp [hxy, hyx] at hab
          · have hrec1 : charsLe xs ys = true := by simpa [hxy, hyx] using hab
            by_cases hyz : y.toNat < z.toNat
            · simp [show x.toNat < z.toNat by omega]
            · by_cases hzy : z.toNat < y.toNat
              · simp [hyz, hzy] at hbc
              · have hrec2 : charsLe ys zs = true := by simpa [hyz, hzy] using hbc
                simp [show ¬ x.toNat < z.toNat by omega, show ¬ z.toNat < x.toNat by omega]
                exact ih ys zs hrec1 hrec2

theorem charsLe_antisymm :
    ∀ a b : List Char, charsLe a b = true → charsLe b a = true → a = b := by
  intro a
  induction a with
  | nil =>
    intro b _ hba
    cases b with
    | nil => rfl
    | cons y ys => simp [charsLe] at hba
  | cons x xs ih =>
    intro b hab hba
    cases b with
    | nil => simp [charsLe] at hab
    | cons y ys =>
      simp only [charsLe] at hab hba
      by_cases hxy : x.toNat < y.toNat <;> by_cases hyx : y.toNat < x.toNat <;>
        simp [hxy, hyx] at hab hba
      · omega
      · have hx : x = y := charPoint_inj _ _ (by omega)
        rw [hx, ih ys hab hba]

instance : IsTotal String strLe := ⟨fun a b => charsLe_total a.data b.data⟩

instance : IsTrans String strLe :=
  ⟨fun a b c hab hbc => charsLe_trans a.data b.data c.data hab hbc⟩

instance : IsAntisymm String strLe := by
  refine ⟨fun a b hab hba => ?_⟩
  cases a
  cases b
  exact congrArg String.mk (charsLe_antisymm _ _ hab hba)

/-- Sorting the card strings is order-insensitive: permuted inputs give
the same joined key. -/
theorem sortedCardKey_perm {l1 l2 : List Card} (h : l1.Perm l2) :
    sortedCardKey l1 = sortedCardKey l2 := by
  unfold sortedCardKey
  congr 1
  apply List.eq_of_perm_of_sorted (r := strLe)
  · exact ((List.perm_insertionSort strLe _).trans (h.map cardStr)).trans
      (List.perm_insertionSort strLe _).symm
  · exact List.sorted_insertionSort strLe _
  · exact List.sorted_insertionSort strLe _

theorem get_cache_key_perm {hA hB bA bB : List Card} (hp : hA.Perm hB) (hb : bA.Perm bB)
    (nOpp : Nat) : get_cache_key hA bA nOpp = get_cache_key hB bB nOpp := by
  unfold get_cache_key
  rw [sortedCardKey_perm hp, sortedCardKey_perm hb]

/-- Existing cache entries survive any successful simulate call: a hit
leaves the cache unchanged and a miss only prepends a key that was
absent. -/
def cachePreserved (c c2 : List (String × SimResult)) : Prop :=
  ∀ k v, cacheLookup c k = some v → cacheLookup c2 k = some v

theorem simulate_preserves {c c2 : List (String × SimResult)} {f r : SimResult}
    {hole board : List Card} {nOpp : Nat} {uc : Bool}
    (h : simulate c f hole board nOpp uc = Except.ok (r, c2)) : cachePreserved c c2 := by
  by_cases hl : hole.length ≠ 2
  · simp [simulate, hl] at h
  · by_cases hb : 5 < board.length
    · simp [simulate, hl, hb] at h
    · cases uc with
      | false =>
        simp [simulate, hl, hb] at h
        rw [← h.2]
        exact fun k v hv => hv
      | true =>
        simp only [simulate, hl, hb, if_false, if_neg, if_true, ite_false, ite_true] at h
        rcases hkey : cacheLookup c (get_cache_key hole board nOpp) with _ | r0 <;>
          rw [hkey] at h <;> simp at h
        · rw [← h.2]
          intro k v hv
          unfold cacheLookup
          split_ifs with he
          · rw [he] at hkey
            rw [hkey] at hv
            cases hv
          · exact hv
        · rw [← h.2]
          exact fun k v hv => hv

/-- After a successful call with `use_cache`, the scenario key maps to
the returned result. -/
theorem simulate_caches {c c2 : List (String × SimResult)} {f r : SimResult}
    {hole board : List Card} {nOpp : Nat}
    (h : simulate c f hole board nOpp true = Except.ok (r, c2)) :
    cacheLookup c2 (get_cache_key hole board nOpp) = some r := by
  by_cases hl : hole.length ≠ 2
  · simp [simulate, hl] at h
  · by_cases hb : 5 < board.length
    · simp [simulate, hl, hb] at h
    · simp only [simulate, hl, hb, if_false, if_neg, if_true, ite_false, ite_true] at h
      rcases hkey : cacheLookup c (get_cache_key hole board nOpp) with _ | r0 <;>
        rw [hkey] at h <;> simp at h
      · rw [← h.1, ← h.2]
        unfold cacheLookup
        simp
      · rw [← h.1, ← h.2]
        exact hkey

/-- Any sequence of further `simulate` calls (any arguments, any cache
mode) between the two calls of interest. -/
inductive CacheEvolves : List (String × SimResult) → List (String × SimResult) → Prop
  | refl (c : List (String × SimResult)) : CacheEvolves c c
  | step {c c2 c3 : List (String × SimResult)} (f : SimResult) (hole board : List Card)
      (nOpp : Nat) (uc : Bool) (r : SimResult)
      (hcall : simulate c f hole board nOpp uc = Except.ok (r, c2))
      (hrest : CacheEvolves c2 c3) : CacheEvolves c c3

theorem evolves_preserves {c c2 : List (String × SimResult)} (h : CacheEvolves c c2) :
    cachePreserved c c2 := by
  induction h with
  | refl c => exact fun k v hv => hv
  | step f hole board nOpp uc r hcall hrest ih =>
    exact fun k v hv => ih k v (simulate_preserves hcall k v hv)

/-- Claim C8: two cached `simulate` calls with the same hole cards,
board cards and opponent count — in any order within hole or board —
return the same result within the process lifetime: the cache key sorts
the card strings, an entry is written at most once and never evicted,
so the second call hits the first call's entry.  (`num_simulations` is
NOT part of the key, so this holds across differing trial counts too,
which is why the fresh results `f1`, `f2` may differ.) -/
theorem C8_cached_deterministic {c0 c1 c2 c3 : List (String × SimResult)}
    {f1 f2 r1 r2 : SimResult} {hA bA hB bB : List Card} {nOpp : Nat}
    (hp : hA.Perm hB) (hb : bA.Perm bB)
    (call1 : simulate c0 f1 hA bA nOpp true = Except.ok (r1, c1))
    (ev : CacheEvolves c1 c2)
    (call2 : simulate c2 f2 hB bB nOpp true = Except.ok (r2, c3)) :
    r2 = r1 := by
  have hkey : get_cache_key hB bB nOpp = get_cache_key hA bA nOpp :=
    get_cache_key_perm hp.symm hb.symm nOpp
  have hc1 : cacheLookup c1 (get_cache_key hA bA nOpp) = some r1 := simulate_caches call1
  have hc2 : cacheLookup c2 (get_cache_key hA bA nOpp) = some r1 :=
    evolves_preserves ev _ _ hc1
  by_cases hl : hB.length ≠ 2
  · simp [simulate, hl] at call2
  · by_cases hbl : 5 < bB.length
    · simp [simulate, hl, hbl] at call2
    · simp only [simulate, hl, hbl, if_false, if_neg, if_true, ite_false, ite_true] at call2
      rw [hkey, hc2] at call2
      simp at call2
      exact call2.1.symm

def simResA : SimResult := ⟨3/4, ⟨3, 0, 1⟩⟩

def simResB : SimResult := ⟨1/4, ⟨1, 0, 3⟩⟩

def holeAK : List Card := [⟨.ace, .hearts⟩, ⟨.king, .diamonds⟩]

def holeKA : List Card := [⟨.king, .diamonds⟩, ⟨.ace, .hearts⟩]

def cacheAfterAK : List (String × SimResult) := [(get_cache_key holeAK [] 1, simResA)]

theorem C8_witness :
    simulate [] simResA holeAK [] 1 true = Except.ok (simResA, cacheAfterAK) ∧
    simulate cacheAfterAK simResB holeKA [] 1 true = Except.ok (simResA, cacheAfterAK) ∧
    simResA = simResA :=
  by
  have call1 : simulate [] simResA holeAK [] 1 true = Except.ok (simResA, cacheAfterAK) := rfl
  have call2 : simulate cacheAfterAK simResB holeKA [] 1 true =
      Except.ok (simResA, cacheAfterAK) := rfl
  exact ⟨call1, call2,
    @C8_cached_deterministic [] cacheAfterAK cacheAfterAK cacheAfterAK simResA simResB
      simResA simResA holeAK [] holeKA [] 1
      (List.Perm.swap (⟨.king, .diamonds⟩ : Card) (⟨.ace, .hearts⟩ : Card) [])
      (List.Perm.refl []) call1 (CacheEvolves.refl _) call2⟩

end Maverick

/-! ### C3 — kicker ordering -/


namespace Maverick

theorem sorted_take {r : Card → Card → Prop} {l : List Card} (n : Nat)
    (h : List.Sorted r l) : List.Sorted r (l.take n) :=
  List.Pairwise.sublist (List.take_sublist n l) h

theorem checkStraightFlush_spec {cards : List Card} {cat : HandRank} {ks : List Card}
    (h : checkStraightFlush cards = some (cat, ks)) :
    (cat = HandRank.royalFlush ∨ cat = HandRank.straightFlush) ∧ List.Sorted rankLe ks := by
  unfold checkStraightFlush at h
  split at h
  · cases h
  · split at h
    · cases h
    · try dsimp only at h
      split at h
      · cases h
      · try dsimp only at h
        split at h
        · split at h
          · injection h with h1
            injection h1 with hcat hks
            subst hcat; subst hks
            exact ⟨Or.inl rfl, List.sorted_insertionSort rankLe _⟩
          · injection h with h1
            injection h1 with hcat hks
            subst hcat; subst hks
            exact ⟨Or.inr rfl, List.sorted_insertionSort rankLe _⟩
        · injection h with h1
          injection h1 with hcat hks
          subst hcat; subst hks
          exact ⟨Or.inr rfl, List.sorted_insertionSort rankLe _⟩

theorem checkFourOfAKind_spec {cards : List Card} {cat : HandRank} {ks : List Card}
    (h : checkFourOfAKind cards = some (cat, ks)) :
    cat = HandRank.fourOfAKind ∧ List.Sorted rankLe ks := by
  unfold checkFourOfAKind at h
  split at h
  · cases h
  · try dsimp only at h
    injection h with h1
    injection h1 with hcat hks
    subst hcat; subst hks
    exact ⟨rfl, List.sorted_insertionSort rankLe _⟩

theorem checkFullHouse_spec {cards : List Card} {cat : HandRank} {ks : List Card}
    (h : checkFullHouse cards = some (cat, ks)) :
    cat = HandRank.fullHouse ∧ ∃ t : Rank, List.Sorted (fhGe t) ks := by
  unfold checkFullHouse at h
  split at h
  · rename_i t p _ _
    injection h with h1
    injection h1 with hcat hks
    subst hcat; subst hks
    exact ⟨rfl, t, sorted_take 5 (List.sorted_insertionSort (fhGe t) _)⟩
  · cases h

theorem checkFlush_spec {cards : List Card} {cat : HandRank} {ks : List Card}
    (h : checkFlush cards = some (cat, ks)) :
    cat = HandRank.flush ∧ List.Sorted rankGe ks := by
  unfold checkFlush at h
  split at h
  · injection h with h1
    injection h1 with hcat hks
    subst hcat; subst hks
    exact ⟨rfl, sorted_take 5 (List.sorted_insertionSort rankGe _)⟩
  · cases h

theorem checkStraight_spec {cards : List Card} {cat : HandRank} {ks : List Card}
    (h : checkStraight cards = some (cat, ks)) :
    cat = HandRank.straight ∧ List.Sorted rankLe ks := by
  unfold checkStraight at h
  try dsimp only at h
  split at h
  · cases h
  · try dsimp only at h
    injection h with h1
    injection h1 with hcat hks
    subst hcat; subst hks
    exact ⟨rfl, List.sorted_insertionSort rankLe _⟩

theorem checkThreeOfAKind_spec {cards : List Card} {cat : HandRank} {ks : List Card}
    (h : checkThreeOfAKind cards = some (cat, ks)) :
    cat = HandRank.threeOfAKind ∧ List.Sorted rankLe ks := by
  unfold checkThreeOfAKind at h
  split at h
  · try dsimp only at h
    injection h with h1
    injection h1 with hcat hks
    subst hcat; subst hks
    exact ⟨rfl, List.sorted_insertionSort rankLe _⟩
  · cases h

theorem checkTwoPair_spec {cards : List Card} {cat : HandRank} {ks : List Card}
    (h : checkTwoPair cards = some (cat, ks)) :
    cat = HandRank.twoPair ∧ List.Sorted rankLe ks := by
  unfold checkTwoPair at h
  try dsimp only at h
  split at h
  · cases h
  · try dsimp only at h
    injection h with h1
    injection h1 with hcat hks
    subst hcat; subst hks
    exact ⟨rfl, List.sorted_insertionSort rankLe _⟩

theorem checkOnePair_spec {cards : List Card} {cat : HandRank} {ks : List Card}
    (h : checkOnePair cards = some (cat, ks)) :
    cat = HandRank.pair ∧ List.Sorted rankLe ks := by
  unfold checkOnePair at h
  split at h
  · try dsimp only at h
    injection h with h1
    injection h1 with hcat hks
    subst hcat; subst hks
    exact ⟨rfl, List.sorted_insertionSort rankLe _⟩
  · cases h

end Maverick

namespace Maverick

/-- Claim C3 amended: the kicker sequence returned by `evaluate_hand`
is rank-sorted in every category, but the DIRECTION is not uniformly
most-significant first: Flush and High Card results are sorted
most-significant (highest rank) first, while Royal Flush, Straight
Flush, Four of a Kind, Straight, Three of a Kind, Two Pair and One Pair
results come back in ASCENDING rank order (e.g. a Royal Flush yields
[T, J, Q, K, A]); a Full House is sorted descending by the (is-triple,
rank) key, i.e. the triple first, then the pair. -/
theorem C3_amended {cards : List Card} {cat : HandRank} {ks : List Card}
    (h : evaluate_hand cards = Except.ok (cat, ks)) :
    ((cat = HandRank.flush ∨ cat = HandRank.highCard) → List.Sorted rankGe ks) ∧
    ((cat = HandRank.royalFlush ∨ cat = HandRank.straightFlush ∨
        cat = HandRank.fourOfAKind ∨ cat = HandRank.straight ∨
        cat = HandRank.threeOfAKind ∨ cat = HandRank.twoPair ∨ cat = HandRank.pair) →
      List.Sorted rankLe ks) ∧
    (cat = HandRank.fullHouse → ∃ t : Rank, List.Sorted (fhGe t) ks) := by
  unfold evaluate_hand at h
  split at h
  · cases h
  · injection h with hb
    unfold evalBody at hb
    split at hb
    · rename_i res heq
      obtain ⟨c0, k0⟩ := res
      injection hb with hcat hks
      subst hcat; subst hks
      obtain ⟨hcat, hsort⟩ := checkStraightFlush_spec heq
      rcases hcat with rfl | rfl
      · exact ⟨(fun hc => by rcases hc with hc | hc <;> cases hc),
          (fun _ => hsort), (fun hc => by cases hc)⟩
      · exact ⟨(fun hc => by rcases hc with hc | hc <;> cases hc),
          (fun _ => hsort), (fun hc => by cases hc)⟩
    · split at hb
      · rename_i res heq
        obtain ⟨c0, k0⟩ := res
        injection hb with hcat hks
        subst hcat; subst hks
        obtain ⟨hcat, hsort⟩ := checkFourOfAKind_spec heq
        subst hcat
        exact ⟨(fun hc => by rcases hc with hc | hc <;> cases hc),
          (fun _ => hsort), (fun hc => by cases hc)⟩
      · split at hb
        · rename_i res heq
          obtain ⟨c0, k0⟩ := res
          injection hb with hcat hks
          subst hcat; subst hks
          obtain ⟨hcat, hsort⟩ := checkFullHouse_spec heq
          subst hcat
          exact ⟨(fun hc => by rcases hc with hc | hc <;> cases hc),
            (fun hc => by rcases hc with hc | hc | hc | hc | hc | hc | hc <;> cases hc),
            (fun _ => hsort)⟩
        · split at hb
          · rename_i res heq
            obtain ⟨c0, k0⟩ := res
            injection hb with hcat hks
            subst hcat; subst hks
            obtain ⟨hcat, hsort⟩ := checkFlush_spec heq
            subst hcat
            exact ⟨(fun _ => hsort),
              (fun hc => by rcases hc with hc | hc | hc | hc | hc | hc | hc <;> cases hc),
              (fun hc => by cases hc)⟩
          · split at hb
            · rename_i res heq
              obtain ⟨c0, k0⟩ := res
              injection hb with hcat hks
              subst hcat; subst hks
              obtain ⟨hcat, hsort⟩ := checkStraight_spec heq
              subst hcat
              exact ⟨(fun hc => by rcases hc with hc | hc <;> cases hc),
                (fun _ => hsort), (fun hc => by cases hc)⟩
            · split at hb
              · rename_i res heq
                obtain ⟨c0, k0⟩ := res
                injection hb with hcat hks
                subst hcat; subst hks
                obtain ⟨hcat, hsort⟩ := checkThreeOfAKind_spec heq
                subst hcat
                exact ⟨(fun hc => by rcases hc with hc | hc <;> cases hc),
                  (fun _ => hsort), (fun hc => by cases hc)⟩
              · split at hb
                · rename_i res heq
                  obtain ⟨c0, k0⟩ := res
                  injection hb with hcat hks
                  subst hcat; subst hks
                  obtain ⟨hcat, hsort⟩ := checkTwoPair_spec heq
                  subst hcat
                  exact ⟨(fun hc => by rcases hc with hc | hc <;> cases hc),
                    (fun _ => hsort), (fun hc => by cases hc)⟩
                · split at hb
                  · rename_i res heq
                    obtain ⟨c0, k0⟩ := res
                    injection hb with hcat hks
                    subst hcat; subst hks
                    obtain ⟨hcat, hsort⟩ := checkOnePair_spec heq
                    subst hcat
                    exact ⟨(fun hc => by rcases hc with hc | hc <;> cases hc),
                      (fun _ => hsort), (fun hc => by cases hc)⟩
                  · unfold highCardEval at hb
                    injection hb with hcat hks
                    subst hcat; subst hks
                    refine ⟨(fun _ => sorted_take 5 (List.sorted_insertionSort rankGe _)),
                      (fun hc => by rcases hc with hc | hc | hc | hc | hc | hc | hc <;> cases hc),
                      (fun hc => by cases hc)⟩

end Maverick

namespace Maverick

def royalCards : List Card :=
  [⟨.ace, .hearts⟩, ⟨.king, .hearts⟩, ⟨.queen, .hearts⟩, ⟨.jack, .hearts⟩,
   ⟨.ten, .hearts⟩, ⟨.two, .clubs⟩, ⟨.three, .diamonds⟩]

/-- Claim C3 counterexample: the spec's own example — the Royal Flush
on {A♥, K♥, Q♥, J♥, T♥, 2♣, 3♦} — returns kickers [T♥, J♥, Q♥, K♥, A♥]
in ascending order, not the claimed most-significant-first
[A, K, Q, J, T]. -/
theorem C3_counterexample :
    evaluate_hand royalCards =
      Except.ok (HandRank.royalFlush,
        [⟨.ten, .hearts⟩, ⟨.jack, .hearts⟩, ⟨.queen, .hearts⟩, ⟨.king, .hearts⟩,
         ⟨.ace, .hearts⟩]) ∧
    ([(⟨.ten, .hearts⟩ : Card), ⟨.jack, .hearts⟩, ⟨.queen, .hearts⟩, ⟨.king, .hearts⟩,
      ⟨.ace, .hearts⟩] ≠
     [⟨.ace, .hearts⟩, ⟨.king, .hearts⟩, ⟨.queen, .hearts⟩, ⟨.jack, .hearts⟩,
      ⟨.ten, .hearts⟩]) :=
  ⟨rfl, by decide⟩

theorem C3_witness :
    List.Sorted rankLe
      [(⟨.ten, .hearts⟩ : Card), ⟨.jack, .hearts⟩, ⟨.queen, .hearts⟩, ⟨.king, .hearts⟩,
       ⟨.ace, .hearts⟩] :=
  (@C3_amended royalCards HandRank.royalFlush
    [⟨.ten, .hearts⟩, ⟨.jack, .hearts⟩, ⟨.queen, .hearts⟩, ⟨.king, .hearts⟩,
     ⟨.ace, .hearts⟩] rfl).2.1 (Or.inl rfl)

end Maverick

/-! ### C10 — improving cards and held cards -/

namespace Maverick

theorem foldl_max_acc_or_mem : ∀ (l : List Nat) (a : Nat),
    l.foldl max a = a ∨ l.foldl max a ∈ l := by
  intro l
  induction l with
  | nil => intro a; left; rfl
  | cons x t ih =>
    intro a
    rcases ih (max a x) with h | h
    · rw [List.foldl_cons, h]
      rcases Nat.le_total a x with hle | hle
      · right; rw [Nat.max_eq_right hle]; exact List.mem_cons_self _ _
      · left; rw [Nat.max_eq_left hle]
    · right
      exact List.mem_cons_of_mem _ h

theorem base_le_foldl_max : ∀ (l : List Nat) (a : Nat), a ≤ l.foldl max a := by
  intro l
  induction l with
  | nil => intro a; exact le_refl a
  | cons y t ih => intro a; exact le_trans (Nat.le_max_left a y) (ih (max a y))

theorem le_foldl_max : ∀ (l : List Nat) (a x : Nat), x ∈ l → x ≤ l.foldl max a := by
  intro l
  induction l with
  | nil => intro a x hx; cases hx
  | cons y t ih =>
    intro a x hx
    rw [List.foldl_cons]
    rcases List.mem_cons.mp hx with rfl | hx
    · exact le_trans (Nat.le_max_right a x) (base_le_foldl_max t _)
    · exact ih _ _ hx

theorem le_listMax {l : List Nat} {x : Nat} (hx : x ∈ l) : x ≤ listMax l :=
  le_foldl_max l 0 x hx

theorem listMax_mem {l : List Nat} (hl : l ≠ []) : listMax l ∈ l := by
  cases l with
  | nil => exact absurd rfl hl
  | cons y t =>
    have hfold : listMax (y :: t) = t.foldl max y := by
      show (y :: t).foldl max 0 = t.foldl max y
      rw [List.foldl_cons, Nat.max_eq_right (Nat.zero_le y)]
    rw [hfold]
    rcases foldl_max_acc_or_mem t y with h | h
    · rw [h]; exact List.mem_cons_self y t
    · exact List.mem_cons_of_mem _ h

theorem foldl_min_mem : ∀ (l : List Nat) (a : Nat), l.foldl min a = a ∨ l.foldl min a ∈ l := by
  intro l
  induction l with
  | nil => intro a; left; rfl
  | cons x t ih =>
    intro a
    rcases ih (min a x) with h | h
    · rw [List.foldl_cons, h]
      rcases Nat.le_total a x with hle | hle
      · left; rw [Nat.min_eq_left hle]
      · right; rw [Nat.min_eq_right hle]; exact List.mem_cons_self _ _
    · right
      exact List.mem_cons_of_mem _ h

theorem foldl_min_le_base : ∀ (l : List Nat) (a : Nat), l.foldl min a ≤ a := by
  intro l
  induction l with
  | nil => intro a; exact le_refl a
  | cons y t ih => intro a; exact le_trans (ih (min a y)) (Nat.min_le_left a y)

theorem foldl_min_le : ∀ (l : List Nat) (a x : Nat), x ∈ l → l.foldl min a ≤ x := by
  intro l
  induction l with
  | nil => intro a x hx; cases hx
  | cons y t ih =>
    intro a x hx
    rw [List.foldl_cons]
    rcases List.mem_cons.mp hx with rfl | hx
    · exact le_trans (foldl_min_le_base t _) (Nat.min_le_right a x)
    · exact ih _ _ hx

theorem listMin_le {l : List Nat} {x : Nat} (hx : x ∈ l) : listMin l ≤ x := by
  cases l with
  | nil => cases hx
  | cons y t =>
    rw [listMin]
    rcases List.mem_cons.mp hx with rfl | hx
    · exact foldl_min_le_base t x
    · exact foldl_min_le t y x hx

theorem listMin_mem {l : List Nat} (hl : l ≠ []) : listMin l ∈ l := by
  cases l with
  | nil => exact absurd rfl hl
  | cons y t =>
    rw [listMin]
    rcases foldl_min_mem t y with h | h
    · rw [h]; exact List.mem_cons_self y t
    · exact List.mem_cons_of_mem _ h

end Maverick

namespace Maverick

/-- An element of a strictly sorted list lying strictly between the min
and max of a contiguous slice must occur in that slice. -/
theorem slice_complete {L : List Nat} (hs : List.Sorted (· < ·) L) (i k : Nat)
    {m : Nat} (hm : m ∈ L)
    (hmin : listMin ((L.drop i).take k) < m) (hmax : m < listMax ((L.drop i).take k)) :
    m ∈ (L.drop i).take k := by
  set S := (L.drop i).take k with hS
  have hne : S ≠ [] := by
    intro hnil
    rw [hnil] at hmax
    exact Nat.not_lt_zero m hmax
  have hdecomp : L = L.take i ++ (S ++ (L.drop i).drop k) := by
    rw [hS, List.take_append_drop, List.take_append_drop]
  rw [hdecomp] at hs hm
  rcases List.mem_append.mp hm with hpre | hrest
  · exfalso
    have hcross := (List.pairwise_append.mp hs).2.2 m hpre
    have hminS : listMin S ∈ S := listMin_mem hne
    have : m < listMin S := hcross _ (List.mem_append_left _ hminS)
    omega
  · rcases List.mem_append.mp hrest with hin | hpost
    · exact hin
    · exfalso
      have hpair := (List.pairwise_append.mp hs).2.1
      have hcross := (List.pairwise_append.mp hpair).2.2
      have hmaxS : listMax S ∈ S := listMax_mem hne
      have : listMax S < m := hcross _ hmaxS m hpost
      omega

theorem dedupFirstAux_mem {α} [DecidableEq α] :
    ∀ (l seen : List α) (x : α), x ∈ dedupFirstAux l seen ↔ (x ∈ l ∧ x ∉ seen) := by
  intro l
  induction l with
  | nil => intro seen x; simp [dedupFirstAux]
  | cons a t ih =>
    intro seen x
    simp only [dedupFirstAux]
    split_ifs with ha
    · rw [ih]
      constructor
      · rintro ⟨hx, hs⟩
        exact ⟨List.mem_cons_of_mem a hx, hs⟩
      · rintro ⟨hx, hs⟩
        rcases List.mem_cons.mp hx with rfl | hx2
        · exact absurd ha hs
        · exact ⟨hx2, hs⟩
    · constructor
      · intro hmem
        rcases List.mem_cons.mp hmem with rfl | hmem2
        · exact ⟨List.mem_cons_self x t, ha⟩
        · obtain ⟨hx, hs⟩ := (ih (a :: seen) x).mp hmem2
          exact ⟨List.mem_cons_of_mem a hx, fun hc => hs (List.mem_cons_of_mem a hc)⟩
      · rintro ⟨hx, hs⟩
        rcases List.mem_cons.mp hx with rfl | hx2
        · exact List.mem_cons_self x _
        · by_cases hxa : x = a
          · subst hxa; exact List.mem_cons_self x _
          · refine List.mem_cons_of_mem a ((ih (a :: seen) x).mpr ⟨hx2, ?_⟩)
            intro hc
            rcases List.mem_cons.mp hc with h | h
            · exact hxa h
            · exact hs h

theorem dedupFirst_mem {α} [DecidableEq α] (l : List α) (x : α) :
    x ∈ dedupFirst l ↔ x ∈ l := by
  rw [dedupFirst, dedupFirstAux_mem]
  simp

theorem dedupFirstAux_nodup {α} [DecidableEq α] :
    ∀ (l seen : List α), (dedupFirstAux l seen).Nodup := by
  intro l
  induction l with
  | nil => intro seen; simp [dedupFirstAux]
  | cons a t ih =>
    intro seen
    simp only [dedupFirstAux]
    split_ifs with ha
    · exact ih seen
    · refine List.Nodup.cons ?_ (ih (a :: seen))
      intro hmem
      exact ((dedupFirstAux_mem t (a :: seen) a).mp hmem).2 (List.mem_cons_self a seen)

theorem dedupFirst_nodup {α} [DecidableEq α] (l : List α) : (dedupFirst l).Nodup :=
  dedupFirstAux_nodup l []

end Maverick

namespace Maverick

/-- The core of the gutshot analysis: a value strictly inside a
4-window of the (sorted distinct, possibly Ace-low-appended) rank list,
but absent from the window, cannot be one of the present rank values. -/
theorem gutshot_missing_not_present {S : List Nat} (hsort : List.Sorted (· < ·) S)
    (hS2 : ∀ x ∈ S, 2 ≤ x) (hS14 : ∀ x ∈ S, x ≤ 14)
    {ranks : List Nat} (hranks : ranks = S ∨ (ranks = S ++ [1] ∧ 14 ∈ S))
    (i k : Nat)
    (hw4 : ((ranks.drop i).take k).length = 4)
    (hspan : listMax ((ranks.drop i).take k) - listMin ((ranks.drop i).take k) = 4)
    {m : Nat}
    (hmem : m ∈ List.range' (listMin ((ranks.drop i).take k))
      (listMax ((ranks.drop i).take k) - listMin ((ranks.drop i).take k)))
    (hnot : m ∉ (ranks.drop i).take k) :
    m ∉ S := by
  intro hmS
  have hwne : (ranks.drop i).take k ≠ [] := by
    intro h0
    rw [h0] at hw4
    cases hw4
  have hminw := listMin_mem hwne
  have hmaxw := listMax_mem hwne
  have hrange := List.mem_range'_1.mp hmem
  have hminle : listMin ((ranks.drop i).take k) ≤ listMax ((ranks.drop i).take k) :=
    listMin_le hmaxw
  have hmlt : m < listMax ((ranks.drop i).take k) := by omega
  have hmgt : listMin ((ranks.drop i).take k) < m :=
    lt_of_le_of_ne hrange.1 (fun he => hnot (he ▸ hminw))
  rcases hranks with rfl | ⟨hreq, h14S⟩
  · exact hnot (slice_complete hsort i k hmS hmgt hmlt)
  · subst hreq
    have hdec : ((S ++ [1]).drop i).take k =
        (S.drop i).take k ++ (([1] : List Nat).drop (i - S.length)).take (k - (S.drop i).length) := by
      rw [List.drop_append_eq_append_drop, List.take_append_eq_append_take]
    by_cases hone : (1 : Nat) ∈ ((S ++ [1]).drop i).take k
    · -- the window reaches the appended low Ace, so it also contains the 14
      -- sitting right before it, and the 4-span condition is impossible
      have honeB : (1 : Nat) ∈ (([1] : List Nat).drop (i - S.length)).take (k - (S.drop i).length) := by
        rcases List.mem_append.mp (hdec ▸ hone) with hA | hB
        · exfalso
          have : (2 : Nat) ≤ 1 := hS2 1 (List.mem_of_mem_drop (List.mem_of_mem_take hA))
          omega
        · exact hB
      have hin : i ≤ S.length := by
        by_contra hgt
        have : ([1] : List Nat).drop (i - S.length) = [] := by
          apply List.drop_eq_nil_of_le
          simp
          omega
        rw [this] at honeB
        simp at honeB
      have hklen : (S.drop i).length < k := by
        by_contra hk
        have : (k - (S.drop i).length) = 0 := by omega
        rw [this] at honeB
        simp at honeB
      have hwhole : ((S ++ [1]).drop i).take k = S.drop i ++ [1] := by
        rw [hdec]
        have hA : (S.drop i).take k = S.drop i :=
          List.take_of_length_le (le_of_lt hklen)
        have hd1 : (([1] : List Nat).drop (i - S.length)) = [1] := by
          have h0 : i - S.length = 0 := by omega
          rw [h0, List.drop_zero]
        have hB1 : (([1] : List Nat).drop (i - S.length)).take (k - (S.drop i).length) = [1] := by
          rw [hd1]
          apply List.take_of_length_le
          simp only [List.length_singleton]
          omega
        rw [hA, hB1]
      have hdropne : S.drop i ≠ [] := by
        intro h0
        rw [hwhole, h0] at hw4
        cases hw4
      have h14drop : (14 : Nat) ∈ S.drop i := by
        rcases List.mem_append.mp ((List.take_append_drop i S).symm ▸ h14S) with htk | hdr
        · exfalso
          obtain ⟨y, hy⟩ := List.exists_mem_of_ne_nil _ hdropne
          have hcross := (List.pairwise_append.mp
            ((List.take_append_drop i S).symm ▸ hsort)).2.2 14 htk y hy
          have : y ≤ 14 := hS14 y (List.mem_of_mem_drop hy)
          omega
        · exact hdr
      have h14w : (14 : Nat) ∈ ((S ++ [1]).drop i).take k := by
        rw [hwhole]
        exact List.mem_append_left _ h14drop
      have hle14 := le_listMax h14w
      have hle1 := listMin_le hone
      omega
    · -- the window stays inside the sorted distinct values
      have hws : ((S ++ [1]).drop i).take k = (S.drop i).take k := by
        rw [hdec]
        have hBnil : (([1] : List Nat).drop (i - S.length)).take (k - (S.drop i).length) = [] := by
          rcases hB : (([1] : List Nat).drop (i - S.length)).take (k - (S.drop i).length) with _ | ⟨b, bs⟩
          · rfl
          · exfalso
            have hb1 : b ∈ ([1] : List Nat) :=
              List.mem_of_mem_drop (List.mem_of_mem_take (hB ▸ List.mem_cons_self b bs))
            have : b = 1 := List.mem_singleton.mp hb1
            subst this
            exact hone (hdec ▸ List.mem_append_right _ (hB ▸ List.mem_cons_self 1 bs))
        rw [hBnil, List.append_nil]
      rw [hws] at hnot hmgt hmlt
      exact hnot (slice_complete hsort i k hmS hmgt hmlt)

end Maverick

namespace Maverick

theorem value_int_ge_two (r : Rank) : 2 ≤ r.value_int := by cases r <;> decide

theorem value_int_le_fourteen (r : Rank) : r.value_int ≤ 14 := by cases r <;> decide

/-- The sorted distinct rank values underlying `straightRanks`. -/
def sortedDistinctVals (cards : List Card) : List Nat :=
  List.insertionSort (· ≤ ·) (dedupFirst (cards.map (fun c : Card => c.rank.value_int)))

theorem sortedDistinctVals_sorted (cards : List Card) :
    List.Sorted (· < ·) (sortedDistinctVals cards) := by
  apply List.Sorted.lt_of_le
  · exact List.sorted_insertionSort _ _
  · exact ((List.perm_insertionSort _ _).nodup_iff).mpr (dedupFirst_nodup _)

theorem sortedDistinctVals_mem {cards : List Card} {x : Nat} :
    x ∈ sortedDistinctVals cards ↔ x ∈ cards.map (fun c : Card => c.rank.value_int) := by
  rw [sortedDistinctVals]
  rw [(List.perm_insertionSort _ _).mem_iff]
  exact dedupFirst_mem _ _

theorem sortedDistinctVals_ge_two {cards : List Card} {x : Nat}
    (hx : x ∈ sortedDistinctVals cards) : 2 ≤ x := by
  obtain ⟨c, _, rfl⟩ := List.mem_map.mp (sortedDistinctVals_mem.mp hx)
  exact value_int_ge_two c.rank

theorem sortedDistinctVals_le_fourteen {cards : List Card} {x : Nat}
    (hx : x ∈ sortedDistinctVals cards) : x ≤ 14 := by
  obtain ⟨c, _, rfl⟩ := List.mem_map.mp (sortedDistinctVals_mem.mp hx)
  exact value_int_le_fourteen c.rank

theorem straightRanks_cases (hole community : List Card) :
    straightRanks hole community = sortedDistinctVals (hole ++ community) ∨
      (straightRanks hole community = sortedDistinctVals (hole ++ community) ++ [1] ∧
        14 ∈ sortedDistinctVals (hole ++ community)) := by
  unfold straightRanks withWheelMem
  split_ifs with h14
  · exact Or.inr ⟨rfl, h14⟩
  · exact Or.inl rfl

theorem cardsOfValues_mem {c : Card} {vals : List Nat} (h : c ∈ cardsOfValues vals) :
    c.rank.value_int ∈ vals := by
  unfold cardsOfValues at h
  rw [List.mem_toFinset] at h
  obtain ⟨r, hr, hcs⟩ := List.mem_flatMap.mp h
  obtain ⟨s, _, rfl⟩ := List.mem_map.mp hcs
  have := (List.mem_filter.mp hr).2
  simpa using this

theorem gutshotDraws_not_held (h1 h2 : Card) (community : List Card) {d : DrawInfo}
    (hd : d ∈ gutshotDraws (straightRanks [h1, h2] community)) :
    ∀ c ∈ d.potential_cards, c ∉ [h1, h2] ++ community := by
  intro c hc hcmem
  obtain ⟨ij, _, hf⟩ := List.mem_filterMap.mp hd
  try dsimp only at hf
  split at hf
  · rename_i hcond
    split at hf
    · rename_i missing hfind
      split at hf
      · rename_i hbounds
        injection hf with hdeq
        subst hdeq
        have hval : c.rank.value_int ∈ [missing] := cardsOfValues_mem hc
        have hval2 : c.rank.value_int = missing := List.mem_singleton.mp hval
        have hmnotw : missing ∉ (List.take (ij.2 + 1 - ij.1)
            (List.drop ij.1 (straightRanks [h1, h2] community))) := by
          simpa using List.find?_some hfind
        have hmrange := List.mem_of_find?_eq_some hfind
        have hmS : missing ∉ sortedDistinctVals ([h1, h2] ++ community) := by
          apply gutshot_missing_not_present
            (sortedDistinctVals_sorted ([h1, h2] ++ community))
            (fun x hx => sortedDistinctVals_ge_two hx)
            (fun x hx => sortedDistinctVals_le_fourteen hx)
            ?hr ij.1 (ij.2 + 1 - ij.1) hcond.1 hcond.2 hmrange hmnotw
          case hr =>
            rcases straightRanks_cases [h1, h2] community with h | ⟨h, h14⟩
            · exact Or.inl h
            · exact Or.inr ⟨h, h14⟩
        apply hmS
        rw [← hval2]
        exact sortedDistinctVals_mem.mpr (List.mem_map_of_mem _ hcmem)
      · cases hf
    · cases hf
  · cases hf

end Maverick

namespace Maverick

theorem check_flush_draw_not_held {hole community : List Card} {d : DrawInfo}
    (hd : d ∈ check_flush_draw hole community) :
    ∀ c ∈ d.potential_cards, c ∉ hole ++ community := by
  intro c hc
  obtain ⟨s, _, hf⟩ := List.mem_filterMap.mp hd
  try dsimp only at hf
  split at hf
  · injection hf with hdeq
    subst hdeq
    rw [List.mem_toFinset] at hc
    simpa using (List.mem_filter.mp hc).2
  · split at hf
    · injection hf with hdeq
      subst hdeq
      rw [List.mem_toFinset] at hc
      simpa using (List.mem_filter.mp hc).2
    · cases hf

theorem check_pair_draws_not_held (h1 h2 : Card) (community : List Card) {d : DrawInfo}
    (hd : d ∈ check_pair_draws h1 h2 community) :
    ∀ c ∈ d.potential_cards, c ∉ [h1, h2] ++ community := by
  intro c hc
  unfold check_pair_draws at hd
  try dsimp only at hd
  rcases List.mem_append.mp hd with hset | hover
  · split at hset
    · have hdeq := List.mem_singleton.mp hset
      subst hdeq
      rw [List.mem_toFinset] at hc
      simpa using (List.mem_filter.mp hc).2
    · cases hset
  · split at hover
    · rename_i hcond
      have hdeq := List.mem_singleton.mp hover
      subst hdeq
      rw [List.mem_toFinset] at hc
      have hcomm : community = [] := List.isEmpty_iff.mp hcond.1
      subst hcomm
      simpa using (List.mem_filter.mp hc).2
    · cases hover

theorem check_full_house_draws_not_held (h1 h2 : Card) (community : List Card) {d : DrawInfo}
    (hd : d ∈ check_full_house_draws h1 h2 community) :
    ∀ c ∈ d.potential_cards, c ∉ [h1, h2] ++ community := by
  intro c hc
  unfold check_full_house_draws at hd
  try dsimp only at hd
  rcases List.mem_append.mp hd with htr | hpr
  · split at htr
    · split at htr
      · cases htr
      · have hdeq := List.mem_singleton.mp htr
        subst hdeq
        rw [List.mem_toFinset] at hc
        simpa using (List.mem_filter.mp hc).2
    · cases htr
  · split at hpr
    · obtain ⟨pr, _, hf⟩ := List.mem_filterMap.mp hpr
      try dsimp only at hf
      split at hf
      · cases hf
      · injection hf with hdeq
        subst hdeq
        rw [List.mem_toFinset] at hc
        simpa using (List.mem_filter.mp hc).2
    · cases hpr

theorem check_quads_draw_not_held (h1 h2 : Card) (community : List Card) {d : DrawInfo}
    (hd : d ∈ check_quads_draw h1 h2 community) :
    ∀ c ∈ d.potential_cards, c ∉ [h1, h2] ++ community := by
  intro c hc
  unfold check_quads_draw at hd
  try dsimp only at hd
  split at hd
  · split at hd
    · cases hd
    · have hdeq := List.mem_singleton.mp hd
      subst hdeq
      rw [List.mem_toFinset] at hc
      simpa using (List.mem_filter.mp hc).2
  · cases hd

theorem check_two_pair_draws_not_held (h1 h2 : Card) (community : List Card) {d : DrawInfo}
    (hd : d ∈ check_two_pair_draws h1 h2 community) :
    ∀ c ∈ d.potential_cards, c ∉ [h1, h2] ++ community := by
  intro c hc
  unfold check_two_pair_draws at hd
  try dsimp only at hd
  split at hd
  · split at hd
    · cases hd
    · have hdeq := List.mem_singleton.mp hd
      subst hdeq
      rw [List.mem_toFinset] at hc
      simpa using (List.mem_filter.mp hc).2
  · cases hd

theorem mem_unionR {c : Card} {l : List DrawInfo} :
    c ∈ unionR l ↔ ∃ d ∈ l, c ∈ d.potential_cards := by
  induction l with
  | nil => simp [unionR]
  | cons d t ih =>
    rw [unionR_cons, Finset.mem_union, ih]
    constructor
    · rintro (hc | ⟨e, he, hc⟩)
      · exact ⟨d, List.mem_cons_self d t, hc⟩
      · exact ⟨e, List.mem_cons_of_mem d he, hc⟩
    · rintro ⟨e, he, hc⟩
      rcases List.mem_cons.mp he with rfl | he2
      · exact Or.inl hc
      · exact Or.inr ⟨e, he2, hc⟩

theorem openStraightDraws_type {ranks : List Nat} {d : DrawInfo}
    (hd : d ∈ openStraightDraws ranks) : d.draw_type = "open_straight_draw" := by
  obtain ⟨i, _, hf⟩ := List.mem_filterMap.mp hd
  try dsimp only at hf
  split at hf
  · split at hf
    · cases hf
    · injection hf with hdeq
      subst hdeq
      rfl
  · cases hf

theorem check_combo_draws_not_held (h1 h2 : Card) (community : List Card) {d : DrawInfo}
    (hd : d ∈ check_combo_draws h1 h2 community) :
    ∀ c ∈ d.potential_cards, c ∉ [h1, h2] ++ community := by
  intro c hc
  unfold check_combo_draws at hd
  try dsimp only at hd
  split at hd
  · have hdeq := List.mem_singleton.mp hd
    subst hdeq
    rw [foldl_union_eq, Finset.empty_union] at hc
    obtain ⟨d2, hd2, hc2⟩ := mem_unionR.mp hc
    have hd2mem := List.mem_of_mem_filter hd2
    have hd2ty : d2.draw_type = "gutshot_straight_draw" := by
      simpa using (List.mem_filter.mp hd2).2
    unfold check_straight_draw at hd2mem
    rcases List.mem_append.mp hd2mem with hopen | hgut
    · exact absurd (openStraightDraws_type hopen ▸ hd2ty) (by decide)
    · exact gutshotDraws_not_held h1 h2 community hgut c hc2
  · cases hd

/-- Claim C10 amended: every DrawInfo returned by `calculate_outs`
whose type is not `open_straight_draw` reports only improving cards
outside the hole and board: those checkers either filter held cards
explicitly, or (gutshot and the combo draw built from gutshots) target
a rank value that is provably absent from the hand.  Open-ended
straight draws are the exception the counterexample exhibits: their
extension ranks are not filtered and can contain held cards. -/
theorem C10_amended (h1 h2 : Card) (community : List Card)
    (hnd : ([h1, h2] ++ community).Nodup) (hb : community.length ≤ 5)
    (d : DrawInfo) (hd : d ∈ (calculate_outs h1 h2 community).2)
    (hty : d.draw_type ≠ "open_straight_draw") :
    ∀ c ∈ d.potential_cards, c ∉ [h1, h2] ++ community := by
  unfold calculate_outs at hd
  try dsimp only at hd
  rcases List.mem_append.mp hd with hd | hcombo
  rcases List.mem_append.mp hd with hd | htwop
  rcases List.mem_append.mp hd with hd | hquad
  rcases List.mem_append.mp hd with hd | hfull
  rcases List.mem_append.mp hd with hd | hpair
  rcases List.mem_append.mp hd with hflush | hstraight
  · exact check_flush_draw_not_held hflush
  · unfold check_straight_draw at hstraight
    rcases List.mem_append.mp hstraight with hopen | hgut
    · exact absurd (openStraightDraws_type hopen) hty
    · exact gutshotDraws_not_held h1 h2 community hgut
  · exact check_pair_draws_not_held h1 h2 community hpair
  · exact check_full_house_draws_not_held h1 h2 community hfull
  · exact check_quads_draw_not_held h1 h2 community hquad
  · exact check_two_pair_draws_not_held h1 h2 community htwop
  · exact check_combo_draws_not_held h1 h2 community hcombo

end Maverick

namespace Maverick

/-- Claim C10 counterexample: hole {2♥, 3♦}, board {4♣, 5♠, 6♥} (no
duplicates): the open-ended straight draw on the 3-4-5-6 window reports
the extension rank 2 — including the 2♥ already in the hole — and the
2-3-4-5 window reports rank 6 including the 6♥ on the board, so some
DrawInfo improving set is NOT disjoint from the held cards. -/
theorem C10_counterexample :
    ([(⟨.two, .hearts⟩ : Card), ⟨.three, .diamonds⟩, ⟨.four, .clubs⟩, ⟨.five, .spades⟩,
      ⟨.six, .hearts⟩]).Nodup ∧
    ¬ (∀ d ∈ (calculate_outs ⟨.two, .hearts⟩ ⟨.three, .diamonds⟩
        [⟨.four, .clubs⟩, ⟨.five, .spades⟩, ⟨.six, .hearts⟩]).2,
       ∀ c ∈ d.potential_cards,
        c ∉ [(⟨.two, .hearts⟩ : Card), ⟨.three, .diamonds⟩, ⟨.four, .clubs⟩,
             ⟨.five, .spades⟩, ⟨.six, .hearts⟩]) :=
  ⟨by decide, by decide⟩

/-- The first draw produced for A♥ K♥ on the board Q♥ J♥ 2♣: the heart
flush draw. -/
def heartsFlushDraw : DrawInfo :=
  { draw_type := "flush_draw", outs := 9,
    potential_cards :=
      ((allRanks.map (fun r => Card.mk r Suit.hearts)).filter
        (fun c => c ∉ [(⟨.ace, .hearts⟩ : Card), ⟨.king, .hearts⟩] ++
          [⟨.queen, .hearts⟩, ⟨.jack, .hearts⟩, ⟨.two, .clubs⟩])).toFinset }

theorem C10_witness :
    (⟨.three, .hearts⟩ : Card) ∉ [(⟨.ace, .hearts⟩ : Card), ⟨.king, .hearts⟩] ++
      [⟨.queen, .hearts⟩, ⟨.jack, .hearts⟩, ⟨.two, .clubs⟩] :=
  C10_amended ⟨.ace, .hearts⟩ ⟨.king, .hearts⟩
    [⟨.queen, .hearts⟩, ⟨.jack, .hearts⟩, ⟨.two, .clubs⟩] (by decide) (by decide)
    heartsFlushDraw (List.Mem.head _) (by decide) ⟨.three, .hearts⟩ (by decide)

end Maverick
